import Mathlib

/-!
Verification development for the DOCX paragraph-mapping and document-reconstruction
engine of the DocReplacer backend.

Modelling conventions (shallow embedding of the TypeScript source):

* A JavaScript string that carries document text is modelled as `List Char`
  (abbreviated `Str`); tag and attribute names, which are only compared for
  equality, stay `String`.
* The XML DOM tree of `word/document.xml` is modelled by the inductive type
  `XNode`; a document is modelled as the list of children of the `w:body`
  element (every operation of the source manipulates that subtree).
* DOM `getElementsByTagName` returns all descendant elements with the given
  tag in document (pre-order) order; it is modelled by `collectL`.
* In-place DOM mutation of "the i-th paragraph element" is modelled by the
  positional update `updL`, which rewrites the i-th pre-order occurrence of a
  tag.  This coincides with DOM element identity as long as a mutation does
  not remove or move paragraph elements, which is the case for the documents
  quantified over in the theorems below.
* `JSZip` and the XML parser are external libraries; the container layer is
  modelled by the `Container` type (not-a-zip / zip without the primary part /
  primary part present with its parsed body).
* The four module-level session maps are modelled as association lists with
  JavaScript `Map` get/set/delete semantics.
-/

abbrev Str := List Char

/-- XML DOM node: an element with tag, attributes and children, or a text node. -/
inductive XNode where
  | elem (tag : String) (attrs : List (String × String)) (children : List XNode)
  | txt (s : Str)

/-- Children of a node (empty for text nodes). -/
def childrenOf : XNode → List XNode
  | .elem _ _ ch => ch
  | .txt _ => []

theorem childrenOf_elem (tg : String) (a : List (String × String)) (ch : List XNode) :
    childrenOf (XNode.elem tg a ch) = ch := rfl

/-- Whether a node is an element with the given tag. -/
def hasTag (t : String) : XNode → Bool
  | .elem tg _ _ => tg == t
  | .txt _ => false

mutual

/-- Number of elements with tag `t` in the subtree rooted at a node (the node included). -/
def countN (t : String) (x : XNode) : Nat :=
  match x with
  | .txt _ => 0
  | .elem tg _ ch => (if tg = t then 1 else 0) + countL t ch

/-- Number of elements with tag `t` in a forest. -/
def countL (t : String) (l : List XNode) : Nat :=
  match l with
  | [] => 0
  | x :: xs => countN t x + countL t xs

end

mutual

/-- Elements with tag `t` in the subtree rooted at a node, in pre-order
(the node itself first). -/
def collectN (t : String) (x : XNode) : List XNode :=
  match x with
  | .txt _ => []
  | .elem tg a ch => (if tg = t then [XNode.elem tg a ch] else []) ++ collectL t ch

/-- All elements with tag `t` in a forest in document (pre-order) order.
Models DOM `getElementsByTagName`. -/
def collectL (t : String) (l : List XNode) : List XNode :=
  match l with
  | [] => []
  | x :: xs => collectN t x ++ collectL t xs

end

mutual

/-- All elements of a subtree in pre-order. -/
def preorderN (x : XNode) : List XNode :=
  match x with
  | .txt _ => []
  | .elem tg a ch => XNode.elem tg a ch :: preorderL ch

/-- All elements of a forest in pre-order. -/
def preorderL (l : List XNode) : List XNode :=
  match l with
  | [] => []
  | x :: xs => preorderN x ++ preorderL xs

end

mutual

/-- Concatenated text content of a subtree (DOM `textContent`). -/
def textContentN (x : XNode) : Str :=
  match x with
  | .txt s => s
  | .elem _ _ ch => textContentL ch

/-- Concatenated text content of a forest. -/
def textContentL (l : List XNode) : Str :=
  match l with
  | [] => []
  | x :: xs => textContentN x ++ textContentL xs

end

mutual

/-- Positional update, node part: apply `f` to this node if it is the pending
occurrence of tag `t`, otherwise recurse; the counter becomes `none` once the
update has happened. -/
def updN (t : String) (f : XNode → XNode) (c : Option Nat) (x : XNode) : XNode × Option Nat :=
  match c, x with
  | none, x => (x, none)
  | some n, .txt s => (.txt s, some n)
  | some n, .elem tg a ch =>
    if tg = t then
      if n = 0 then (f (.elem tg a ch), none)
      else
        let rc := updL t f (some (n - 1)) ch
        (.elem tg a rc.1, rc.2)
    else
      let rc := updL t f (some n) ch
      (.elem tg a rc.1, rc.2)

/-- Apply `f` to the n-th (0-based, pre-order) element with tag `t` of a forest. -/
def updL (t : String) (f : XNode → XNode) (c : Option Nat) (l : List XNode) :
    List XNode × Option Nat :=
  match l with
  | [] => ([], c)
  | x :: xs =>
    let r1 := updN t f c x
    let r2 := updL t f r1.2 xs
    (r1.1 :: r2.1, r2.2)

end

mutual

/-- Positional removal, node part: `none` in the first component means this
node was the pending occurrence and is removed with its subtree. -/
def remNthN (t : String) (c : Option Nat) (x : XNode) : Option XNode × Option Nat :=
  match c, x with
  | none, x => (some x, none)
  | some n, .txt s => (some (.txt s), some n)
  | some n, .elem tg a ch =>
    if tg = t then
      if n = 0 then (none, none)
      else
        let rc := remNthL t (some (n - 1)) ch
        (some (.elem tg a rc.1), rc.2)
    else
      let rc := remNthL t (some n) ch
      (some (.elem tg a rc.1), rc.2)

/-- Remove the n-th (0-based, pre-order) element with tag `t` from a forest. -/
def remNthL (t : String) (c : Option Nat) (l : List XNode) : List XNode × Option Nat :=
  match l with
  | [] => ([], c)
  | x :: xs =>
    let r1 := remNthN t c x
    let r2 := remNthL t r1.2 xs
    ((match r1.1 with | none => r2.1 | some y => y :: r2.1), r2.2)

end

mutual

/-- First-occurrence removal, node part: returns the replacement node (or
`none` if the node itself was removed) and the removed element, if any. -/
def remFirstN (t : String) (x : XNode) : Option XNode × Option XNode :=
  match x with
  | .txt s => (some (.txt s), none)
  | .elem tg a ch =>
    if tg = t then (none, some (.elem tg a ch))
    else
      let rc := remFirstL t ch
      match rc.2 with
      | some r => (some (.elem tg a rc.1), some r)
      | none => (some (.elem tg a ch), none)

/-- Remove the first pre-order element with tag `t` from a forest, returning
the remaining forest and the removed element, if any. -/
def remFirstL (t : String) (l : List XNode) : List XNode × Option XNode :=
  match l with
  | [] => ([], none)
  | x :: xs =>
    let r1 := remFirstN t x
    match r1.2 with
    | some r => ((match r1.1 with | none => xs | some y => y :: xs), some r)
    | none =>
      let r2 := remFirstL t xs
      (x :: r2.1, r2.2)

end

mutual

/-- Remove every element with tag `t`, node part (`none` = this node removed). -/
def remAllN (t : String) (x : XNode) : Option XNode :=
  match x with
  | .txt s => some (.txt s)
  | .elem tg a ch => if tg = t then none else some (.elem tg a (removeAllTagL t ch))

/-- Remove every element with tag `t` (with its subtree) from a forest. -/
def removeAllTagL (t : String) (l : List XNode) : List XNode :=
  match l with
  | [] => []
  | x :: xs =>
    match remAllN t x with
    | none => removeAllTagL t xs
    | some y => y :: removeAllTagL t xs

end

mutual

/-- Structural equality test, node part. -/
def beqN (x y : XNode) : Bool :=
  match x, y with
  | .txt s, .txt s2 => s == s2
  | .elem tg a ch, .elem tg2 a2 ch2 => tg == tg2 && a == a2 && beqL ch ch2
  | _, _ => false

/-- Structural equality test, forest part. -/
def beqL (l m : List XNode) : Bool :=
  match l, m with
  | [], [] => true
  | x :: xs, y :: ys => beqN x y && beqL xs ys
  | _, _ => false

end

/-- DOM `getAttribute`: value of the attribute, if present. -/
def getAttr (n : String) (attrs : List (String × String)) : Option String :=
  attrs.lookup n

/-- DOM `setAttribute`: replace the value in place, or append the attribute. -/
def setAttr (n v : String) : List (String × String) → List (String × String)
  | [] => [(n, v)]
  | (k, w) :: rest => if k = n then (n, v) :: rest else (k, w) :: setAttr n v rest

/-- Induction principle for forests of XML nodes. -/
theorem xlist_ind {P : List XNode → Prop}
    (hnil : P [])
    (htxt : ∀ s xs, P xs → P (XNode.txt s :: xs))
    (helem : ∀ tg a ch xs, P ch → P xs → P (XNode.elem tg a ch :: xs)) :
    ∀ l, P l := by
  have key : ∀ n l, sizeOf l ≤ n → P l := by
    intro n
    induction n with
    | zero =>
      intro l hl
      cases l with
      | nil => exact hnil
      | cons x xs => simp at hl
    | succ n ih =>
      intro l hl
      cases l with
      | nil => exact hnil
      | cons x xs =>
        cases x with
        | txt s =>
          refine htxt s xs (ih xs ?_)
          simp at hl
          omega
        | elem tg a ch =>
          refine helem tg a ch xs (ih ch ?_) (ih xs ?_) <;> simp at hl <;> omega
  intro l
  exact key (sizeOf l) l le_rfl

theorem beqL_iff (l : List XNode) : ∀ m, beqL l m = true ↔ l = m := by
  induction l using xlist_ind with
  | hnil =>
    intro m
    cases m <;> simp [beqL]
  | htxt s xs ih =>
    intro m
    cases m with
    | nil => simp [beqL]
    | cons y ys => cases y <;> simp [beqL, beqN, ih]
  | helem tg a ch xs ih1 ih2 =>
    intro m
    cases m with
    | nil => simp [beqL]
    | cons y ys =>
      cases y with
      | txt s2 => simp [beqL, beqN]
      | elem tg2 a2 ch2 =>
        simp [beqL, beqN, ih1, ih2]
        tauto

theorem beqN_iff (x y : XNode) : beqN x y = true ↔ x = y := by
  cases x <;> cases y <;> simp [beqN, beqL_iff, and_assoc]

instance : DecidableEq XNode := fun x y =>
  decidable_of_iff (beqN x y = true) (beqN_iff x y)

theorem countL_eq_length_collectL (t : String) (l : List XNode) :
    countL t l = (collectL t l).length := by
  induction l using xlist_ind with
  | hnil => simp [countL, collectL]
  | htxt s xs ih => simp [countL, countN, collectL, collectN, ih]
  | helem tg a ch xs ih1 ih2 =>
    by_cases h : tg = t <;> simp [countL, countN, collectL, collectN, h, ih1, ih2] <;> omega

theorem collectL_eq_filter_preorderL (t : String) (l : List XNode) :
    collectL t l = (preorderL l).filter (hasTag t) := by
  induction l using xlist_ind with
  | hnil => simp [collectL, preorderL]
  | htxt s xs ih => simp [collectL, collectN, preorderL, preorderN, ih]
  | helem tg a ch xs ih1 ih2 =>
    by_cases h : tg = t <;>
      simp [collectL, collectN, preorderL, preorderN, ih1, ih2, List.filter_append, hasTag, h]

/-! ## Text-to-runs expansion (`createTextRuns`, docx.service.ts lines 96-150) -/

/-- JavaScript `text.split('\n')`: list of newline-separated segments
(an empty string yields one empty segment). -/
def splitNl : Str → List Str
  | [] => [[]]
  | c :: rest =>
    if c = '\n' then [] :: splitNl rest
    else
      match splitNl rest with
      | [] => [[c]]
      | s :: ss => (c :: s) :: ss

/-- A text run: `<w:r>` with the (optional) cloned run properties and a
`<w:t xml:space="preserve">` holding the line. -/
def mkTextRun (rPr : Option XNode) (line : Str) : XNode :=
  .elem "w:r" []
    ((match rPr with | some r => [r] | none => []) ++
      [.elem "w:t" [("xml:space", "preserve")] [.txt line]])

/-- A line-break run: `<w:r>` with the (optional) cloned run properties and `<w:br/>`. -/
def mkBrRun (rPr : Option XNode) : XNode :=
  .elem "w:r" []
    ((match rPr with | some r => [r] | none => []) ++ [.elem "w:br" [] []])

/-- The loop body of `createTextRuns`: a text run for every non-empty segment,
and a break run after every segment except the last. -/
def runsOfLines (rPr : Option XNode) : List Str → List XNode
  | [] => []
  | [l] => if l.length > 0 then [mkTextRun rPr l] else []
  | l :: l2 :: rest =>
    (if l.length > 0 then [mkTextRun rPr l] else []) ++
      (mkBrRun rPr :: runsOfLines rPr (l2 :: rest))

/-- `createTextRuns(xmlDoc, text, rPr)`: split on line breaks, emit alternating
text / break runs, and fall back to a single empty run if nothing was emitted. -/
def createTextRuns (text : Str) (rPr : Option XNode) : List XNode :=
  let runs := runsOfLines rPr (splitNl text)
  if runs.isEmpty then [mkTextRun rPr []] else runs

/-! ## Property normalization helpers (docx.service.ts lines 32-95) -/

/-- JavaScript truthiness of a `getAttribute` result: `null` and `""` are falsy. -/
def attrFalsy : Option String → Bool
  | none => true
  | some s => s == ""

/-- One `if (x) el.setAttribute(n, x)` step of the normalizers: re-set the
attribute to its current value when that value is truthy. -/
def resetAttr1 (y : XNode) (n : String) : XNode :=
  match y with
  | .elem tg a ch =>
    match getAttr n a with
    | some v => if v = "" then y else .elem tg (setAttr n v a) ch
    | none => y
  | .txt s => .txt s

/-- Re-set the listed attributes to their current values when they are truthy. -/
def resetAttrsN (names : List String) (x : XNode) : XNode :=
  names.foldl resetAttr1 x

/-- Apply `f` to the first pre-order element with tag `t` in the forest. -/
def updFirstTag (t : String) (f : XNode → XNode) (l : List XNode) : List XNode :=
  (updL t f (some 0) l).1

/-- `normalizeRunProperties`: clone, then re-set font and size attributes. -/
def normalizeRunProperties (rPr : XNode) : XNode :=
  match rPr with
  | .elem tg a ch =>
    let ch1 := updFirstTag "w:rFonts" (resetAttrsN ["w:ascii", "w:hAnsi", "w:cs"]) ch
    let ch2 := updFirstTag "w:sz" (resetAttrsN ["w:val"]) ch1
    let ch3 := updFirstTag "w:szCs" (resetAttrsN ["w:val"]) ch2
    .elem tg a ch3
  | x => x

/-- `normalizeParagraphProperties`: clone, then re-set spacing and indentation attributes. -/
def normalizeParagraphProperties (pPr : XNode) : XNode :=
  match pPr with
  | .elem tg a ch =>
    let ch1 := updFirstTag "w:spacing" (resetAttrsN ["w:before", "w:after", "w:line"]) ch
    let ch2 := updFirstTag "w:ind" (resetAttrsN ["w:left", "w:right", "w:firstLine"]) ch1
    .elem tg a ch2
  | x => x

/-! ## `ensureDocumentStructure` (docx.service.ts lines 153-185) -/

/-- Fill in default spacing attributes: `w:after` defaults to 0, `w:line` to
276 with `w:lineRule` auto, each only when currently falsy. -/
def fillSpacingAttrs : XNode → XNode
  | .elem tg a ch =>
    let a1 := if attrFalsy (getAttr "w:after" a) then setAttr "w:after" "0" a else a
    let a2 :=
      if attrFalsy (getAttr "w:line" a1) then
        setAttr "w:lineRule" "auto" (setAttr "w:line" "276" a1)
      else a1
    .elem tg a2 ch
  | x => x

/-- Per-paragraph-properties step: create an (initially attribute-less) spacing
element at the end when none exists, then fill the default attributes of the
first spacing element. -/
def fixPPr : XNode → XNode
  | .elem tg a ch =>
    match (collectL "w:spacing" ch).head? with
    | none => .elem tg a (ch ++ [fillSpacingAttrs (.elem "w:spacing" [] [])])
    | some _ => .elem tg a (updFirstTag "w:spacing" fillSpacingAttrs ch)
  | x => x

/-- Per-paragraph step of `ensureDocumentStructure`: if the paragraph has
paragraph properties, normalize the spacing defaults inside them. -/
def ensureParaSpacing : XNode → XNode
  | .elem tg a ch =>
    match (collectL "w:pPr" ch).head? with
    | none => .elem tg a ch
    | some _ => .elem tg a (updFirstTag "w:pPr" fixPPr ch)
  | x => x

/-- Update the i-th pre-order paragraph of the body. -/
def updateParaAt (i : Nat) (f : XNode → XNode) (body : List XNode) : List XNode :=
  (updL "w:p" f (some i) body).1

/-- `ensureDocumentStructure`: move the first `w:sectPr` of the body subtree to
the end of the body, then apply the spacing defaults to every paragraph. -/
def ensureDocumentStructure (body : List XNode) : List XNode :=
  let moved :=
    match remFirstL "w:sectPr" body with
    | (rest, some sp) => rest ++ [sp]
    | (_, none) => body
  (List.range (countL "w:p" moved)).foldl
    (fun acc i => updateParaAt i ensureParaSpacing acc) moved

/-! ## Rebuild (docx.service.ts lines 240-384) -/

/-- An edit submitted to rebuild. -/
structure Edit where
  id : Option String
  text : Str
  inheritStyleFrom : Option String

/-- In-place update of one existing paragraph: take the run properties of the
first run, remove every run, and append the freshly created runs. -/
def replaceParaRuns (text : Str) : XNode → XNode
  | .elem tg a ch =>
    match (collectL "w:r" ch).head? with
    | none => .elem tg a (ch ++ createTextRuns text none)
    | some r0 =>
      let rPr := (collectL "w:rPr" (childrenOf r0)).head?
      .elem tg a (removeAllTagL "w:r" ch ++ createTextRuns text (rPr.map normalizeRunProperties))
  | x => x

/-- First pass of rebuild: apply every edit that references a known paragraph
id in order; ids that are falsy or unknown are skipped; an id mapping outside
the captured paragraph list is a thrown `TypeError` in the source, modelled as
an error. -/
def applyEditsE (pm : List (String × Nat)) (n : Nat) :
    List Edit → List XNode → Except String (List XNode)
  | [], b => .ok b
  | e :: rest, b =>
    match e.id with
    | none => applyEditsE pm n rest b
    | some s =>
      if s = "" then applyEditsE pm n rest b
      else
        match pm.lookup s with
        | none => applyEditsE pm n rest b
        | some idx =>
          if idx < n then
            applyEditsE pm n rest (updateParaAt idx (replaceParaRuns e.text) b)
          else .error "paragraph index out of range"

/-- Scan a reversed edit-list prefix for the nearest edit whose id resolves in
the paragraph map. -/
def anchorScan (pm : List (String × Nat)) : List Edit → Option Nat
  | [] => none
  | e :: rest =>
    match e.id with
    | none => anchorScan pm rest
    | some s =>
      if s = "" then anchorScan pm rest
      else
        match pm.lookup s with
        | some j => some j
        | none => anchorScan pm rest

/-- The insertion anchor of the edit at position `k`: the paragraph index of
the nearest preceding edit with a resolvable id. -/
def anchorOf (edits : List Edit) (pm : List (String × Nat)) (k : Nat) : Option Nat :=
  anchorScan pm (edits.take k).reverse

/-- Build the new paragraph element for an insert edit, cloning the style
source's paragraph properties and first-run run properties when
`inheritStyleFrom` resolves. -/
def buildNewPara (pm : List (String × Nat)) (n : Nat) (body1 : List XNode) (e : Edit) :
    Except String XNode :=
  match e.inheritStyleFrom with
  | none => .ok (.elem "w:p" [] (createTextRuns e.text none))
  | some src =>
    if src = "" then .ok (.elem "w:p" [] (createTextRuns e.text none))
    else
      match pm.lookup src with
      | none => .ok (.elem "w:p" [] (createTextRuns e.text none))
      | some idx =>
        if idx < n then
          match (collectL "w:p" body1).get? idx with
          | none => .error "style source paragraph not found"
          | some srcEl =>
            let pPrPart :=
              match (collectL "w:pPr" (childrenOf srcEl)).head? with
              | some pPr => [normalizeParagraphProperties pPr]
              | none => []
            let rPr :=
              match (collectL "w:r" (childrenOf srcEl)).head? with
              | some r0 => ((collectL "w:rPr" (childrenOf r0)).head?).map normalizeRunProperties
              | none => none
            .ok (.elem "w:p" [] (pPrPart ++ createTextRuns e.text rPr))
        else .error "style source index out of range"

/-- Second pass of rebuild: for every insert edit (null id), the new paragraph
element together with its insertion anchor. -/
def collectInsertsAux (alledits : List Edit) (pm : List (String × Nat)) (n : Nat)
    (body1 : List XNode) : Nat → List Edit → Except String (List (XNode × Option Nat))
  | _, [] => .ok []
  | k, e :: rest =>
    match e.id with
    | some _ => collectInsertsAux alledits pm n body1 (k + 1) rest
    | none => do
      let p ← buildNewPara pm n body1 e
      let anc ←
        match anchorOf alledits pm k with
        | none => pure (none : Option Nat)
        | some j => if j < n then pure (some j) else Except.error "anchor index out of range"
      let more ← collectInsertsAux alledits pm n body1 (k + 1) rest
      pure ((p, anc) :: more)

/-- Insert a new paragraph immediately after the original paragraph with
pre-order index `j` (`insertBefore(el, anchor.nextSibling)`).  The annotated
body marks nodes inserted by this rebuild, which are not part of the captured
paragraph list.  A nested anchor makes `insertBefore` fail in the DOM, modelled
as an error. -/
def insertAfterOrig (newP : XNode) : Nat → List (Bool × XNode) → Except String (List (Bool × XNode))
  | _, [] => .error "anchor paragraph not found"
  | j, (isNew, x) :: rest =>
    if isNew then do
      let r ← insertAfterOrig newP j rest
      pure ((isNew, x) :: r)
    else
      let c := countN "w:p" x
      if hasTag "w:p" x && j == 0 then pure ((isNew, x) :: (true, newP) :: rest)
      else if j < c then .error "insert anchor is nested"
      else do
        let r ← insertAfterOrig newP (j - c) rest
        pure ((isNew, x) :: r)

/-- Third pass of rebuild: insert every new paragraph, in order; an insert with
no anchor goes before the body's first child. -/
def insertNewParas (items : List (XNode × Option Nat)) (body : List XNode) :
    Except String (List XNode) := do
  let ann := body.map (fun x => ((false : Bool), x))
  let fin ← items.foldlM
    (fun acc item =>
      match item.2 with
      | none => pure ((true, item.1) :: acc)
      | some j => insertAfterOrig item.1 j acc)
    ann
  pure (fin.map (fun bx => bx.2))

/-- `DocxService.rebuild` on the parsed body: update existing paragraphs in
place, insert new paragraphs, and run `ensureDocumentStructure`. -/
def rebuild (body : List XNode) (edits : List Edit) (pm : List (String × Nat)) :
    Except String (List XNode) := do
  let n := countL "w:p" body
  let body1 ← applyEditsE pm n edits body
  let items ← collectInsertsAux edits pm n body1 0 edits
  let body2 ← insertNewParas items body1
  pure (ensureDocumentStructure body2)

/-! ## Parsing (docx.service.ts lines 188-237) -/

/-- Text of one run: the concatenated `textContent` of its `w:t` descendants. -/
def runText (r : XNode) : Str :=
  ((collectL "w:t" (childrenOf r)).map (fun t => textContentL (childrenOf t))).flatten

/-- Extracted text of one paragraph: concatenation of its runs' texts. -/
def paraText (p : XNode) : Str :=
  ((collectL "w:r" (childrenOf p)).map runText).flatten

/-- One entry of the `parse` result. -/
structure PNode where
  id : String
  text : Str
  isEmpty : Bool
  styleInfo : Option XNode

/-- Result of `DocxService.parse` on the primary part. -/
structure ParsedDoc where
  nodes : List PNode
  paragraphMap : List (String × Nat)
  styleMap : List (String × Option XNode)

/-- The style snapshot of a paragraph: its first `w:pPr` descendant. -/
def styleInfoOf (p : XNode) : Option XNode :=
  (collectL "w:pPr" (childrenOf p)).head?

/-- The `paragraphs.map((para, index) => ...)` loop: map with the element's index. -/
def mapIdxFrom {α β : Type} (f : Nat → α → β) : Nat → List α → List β
  | _, [] => []
  | i, x :: xs => f i x :: mapIdxFrom f (i + 1) xs

/-- `DocxService.parse` on a parsed body, with `ids` supplying the fresh
`randomUUID` for each paragraph index. -/
def parseBody (ids : Nat → String) (body : List XNode) : ParsedDoc :=
  let paras := collectL "w:p" body
  { nodes :=
      mapIdxFrom
        (fun i p =>
          { id := ids i
            text := paraText p
            isEmpty := (paraText p).all Char.isWhitespace
            styleInfo := styleInfoOf p })
        0 paras
    paragraphMap := mapIdxFrom (fun i _ => (ids i, i)) 0 paras
    styleMap := mapIdxFrom (fun i p => (ids i, styleInfoOf p)) 0 paras }

/-- The container layer as seen by `parse`: the upload is not a ZIP at all
(`JSZip.loadAsync` rejects with a library error), or a ZIP without
`word/document.xml`, or a ZIP whose primary part parses to a body. -/
inductive Container where
  | notZip (msg : String)
  | noDocumentXml
  | okDoc (body : List XNode)

/-- `DocxService.parse`: a JSZip rejection propagates as-is; a missing primary
part throws `document.xml missing`; otherwise the body is parsed. -/
def parseDocx (c : Container) (ids : Nat → String) : Except String ParsedDoc :=
  match c with
  | .notZip msg => .error msg
  | .noDocumentXml => .error "document.xml missing"
  | .okDoc body => .ok (parseBody ids body)

/-! ## Session store (docx.service.ts lines 5-25, routes.ts upload/export) -/

/-- JavaScript `Map.set`: replace in place or append. -/
def setK {α : Type} (k : String) (v : α) : List (String × α) → List (String × α)
  | [] => [(k, v)]
  | (k2, w) :: rest => if k2 = k then (k, v) :: rest else (k2, w) :: setK k v rest

/-- JavaScript `Map.delete`. -/
def delK {α : Type} (k : String) (l : List (String × α)) : List (String × α) :=
  l.filter (fun kv => !(kv.1 == k))

/-- The four module-level session maps. -/
structure Sessions where
  fileBufferStore : List (String × List Nat)
  paragraphMappings : List (String × List (String × Nat))
  paragraphStyles : List (String × List (String × Option XNode))
  documentTimestamps : List (String × Int)

def emptySessions : Sessions := ⟨[], [], [], []⟩

/-- Creation of a session: the upload handler sets all four records. -/
def putSession (id : String) (buf : List Nat) (pm : List (String × Nat))
    (sm : List (String × Option XNode)) (ts : Int) (st : Sessions) : Sessions :=
  { fileBufferStore := setK id buf st.fileBufferStore
    paragraphMappings := setK id pm st.paragraphMappings
    paragraphStyles := setK id sm st.paragraphStyles
    documentTimestamps := setK id ts st.documentTimestamps }

/-- Removal of a session from all four maps. -/
def evictSession (id : String) (st : Sessions) : Sessions :=
  { fileBufferStore := delK id st.fileBufferStore
    paragraphMappings := delK id st.paragraphMappings
    paragraphStyles := delK id st.paragraphStyles
    documentTimestamps := delK id st.documentTimestamps }

/-- The 1-hour session TTL in milliseconds. -/
def sessionTtlMs : Int := 60 * 60 * 1000

/-- `cleanupExpiredDocuments`: iterate over the timestamp entries and evict
every session strictly older than one hour. -/
def cleanupExpiredDocuments (now : Int) (st : Sessions) : Sessions :=
  st.documentTimestamps.foldl
    (fun acc kv => if kv.2 < now - sessionTtlMs then evictSession kv.1 acc else acc)
    st

/-- The export handler's session query: original buffer and paragraph map. -/
def querySession (st : Sessions) (id : String) : Option (List Nat × List (String × Nat)) :=
  match st.fileBufferStore.lookup id, st.paragraphMappings.lookup id with
  | some buf, some pm => some (buf, pm)
  | _, _ => none

/-- An HTTP response of the upload handler (status and message). -/
structure HttpResponse where
  status : Nat
  message : String
deriving DecidableEq

/-- The docx upload route handler: parse, then either store the four session
records and answer 200, or leave the state untouched and answer the single
generic 500 used for every parse failure. -/
def uploadHandler (st : Sessions) (c : Container) (ids : Nat → String)
    (docId : String) (buf : List Nat) (now : Int) : Sessions × HttpResponse :=
  match parseDocx c ids with
  | .error _ => (st, ⟨500, "Failed to parse DOCX"⟩)
  | .ok r => (putSession docId buf r.paragraphMap r.styleMap now st, ⟨200, "ok"⟩)

/-! ## Legacy export path (docx-core.ts lines 60-141) -/

/-- A `<w:t xml:space="preserve">` holding the given text. -/
def coreMkT (text : Str) : XNode :=
  .elem "w:t" [("xml:space", "preserve")] [.txt text]

mutual

/-- Keep-first-run rewrite, node part: a run seen while the flag is `false` is
the first run: its nested runs and `w:t` descendants are removed and the new
`w:t` is appended; every later run is dropped (`none`). -/
def coreKeepFirstN (text : Str) (x : XNode) (seen : Bool) : Option XNode × Bool :=
  match x with
  | .txt s => (some (.txt s), seen)
  | .elem tg a ch =>
    if tg = "w:r" then
      if seen then (none, true)
      else
        (some (.elem tg a (removeAllTagL "w:t" (removeAllTagL "w:r" ch) ++ [coreMkT text])), true)
    else
      let rc := coreKeepFirstL text ch seen
      (some (.elem tg a rc.1), rc.2)

/-- Keep-first-run rewrite over a forest, threading the seen flag. -/
def coreKeepFirstL (text : Str) (l : List XNode) (seen : Bool) : List XNode × Bool :=
  match l with
  | [] => ([], seen)
  | x :: xs =>
    let r1 := coreKeepFirstN text x seen
    let r2 := coreKeepFirstL text xs r1.2
    ((match r1.1 with | none => r2.1 | some y => y :: r2.1), r2.2)

end

/-- `exportDocx`'s in-place paragraph update: rewrite the first run with the
new text, or create a fresh run when the paragraph has none. -/
def coreUpdatePara (text : Str) : XNode → XNode
  | .elem tg a ch =>
    match (collectL "w:r" ch).head? with
    | none => .elem tg a (ch ++ [.elem "w:r" [] [coreMkT text]])
    | some _ => .elem tg a ((coreKeepFirstL text ch false).1)
  | x => x

/-- First pass of `exportDocx` over the edits: update kept paragraphs in
place, append new paragraphs for null ids, and record the kept indices. -/
def coreApplyEdits (pm : List (String × Nat)) (n : Nat) :
    List Edit → List XNode → List Nat → Except String (List XNode × List Nat)
  | [], b, keep => .ok (b, keep)
  | e :: rest, b, keep =>
    match e.id with
    | none =>
      coreApplyEdits pm n rest (b ++ [.elem "w:p" [] [.elem "w:r" [] [coreMkT e.text]]]) keep
    | some s =>
      if s = "" then coreApplyEdits pm n rest b keep
      else
        match pm.lookup s with
        | none => coreApplyEdits pm n rest b keep
        | some idx =>
          if idx < n then
            coreApplyEdits pm n rest (updateParaAt idx (coreUpdatePara e.text) b) (idx :: keep)
          else .error "paragraph index out of range"

/-- `exportDocx` on the parsed body: apply the edits, then delete every
original paragraph whose index was not kept, walking indices downwards. -/
def exportDocxCore (body : List XNode) (edits : List Edit) (pm : List (String × Nat)) :
    Except String (List XNode) := do
  let n := countL "w:p" body
  let r ← coreApplyEdits pm n edits body []
  pure ((List.range n).reverse.foldl
    (fun b i => if r.2.contains i then b else (remNthL "w:p" (some i) b).1) r.1)

/-! ## Lemmas about splitting and text runs -/

theorem splitNl_ne_nil (s : Str) : splitNl s ≠ [] := by
  induction s with
  | nil => simp [splitNl]
  | cons c rest ih =>
    by_cases h : c = '\n'
    · simp [splitNl, h]
    · simp only [splitNl, if_neg h]
      cases hr : splitNl rest with
      | nil => simp
      | cons s ss => simp

theorem splitNl_flatten (s : Str) : (splitNl s).flatten = s.filter (fun c => !(c == '\n')) := by
  induction s with
  | nil => simp [splitNl]
  | cons c rest ih =>
    by_cases h : c = '\n'
    · simp [splitNl, h, List.filter_cons, ih]
    · simp only [splitNl, if_neg h]
      cases hr : splitNl rest with
      | nil => exact absurd hr (splitNl_ne_nil rest)
      | cons s ss =>
        rw [hr] at ih
        simp only [List.flatten_cons] at ih
        simp [List.flatten_cons, List.filter_cons, h, ← ih]

theorem splitNl_eq_single_iff (s : Str) : splitNl s = [[]] ↔ s = [] := by
  constructor
  · intro h
    cases s with
    | nil => rfl
    | cons c rest =>
      by_cases hc : c = '\n'
      · simp [splitNl, hc] at h
        exact absurd h (splitNl_ne_nil rest)
      · simp only [splitNl, if_neg hc] at h
        cases hr : splitNl rest with
        | nil => exact absurd hr (splitNl_ne_nil rest)
        | cons s2 ss =>
          rw [hr] at h
          simp at h
  · intro h
    subst h
    rfl

theorem runsOfLines_eq_nil_iff (rPr : Option XNode) (segs : List Str) :
    runsOfLines rPr segs = [] ↔ segs = [] ∨ segs = [[]] := by
  match segs with
  | [] => simp [runsOfLines]
  | [l] =>
    by_cases h : l = []
    · subst h
      simp [runsOfLines]
    · have : l.length > 0 := by
        cases l with
        | nil => simp at h
        | cons a as => simp
      simp [runsOfLines, this, h]
  | l :: l2 :: rest =>
    by_cases h : l.length > 0 <;> simp [runsOfLines, h]

/-- Text extracted from a list of runs, the way `getParagraphs` reads a
paragraph whose children are exactly those runs. -/
def runsText (runs : List XNode) : Str :=
  (runs.map runText).flatten

theorem runText_mkTextRun (rPr : Option XNode) (line : Str)
    (h : ∀ r, rPr = some r → collectN "w:t" r = []) :
    runText (mkTextRun rPr line) = line := by
  cases rPr with
  | none => simp [runText, mkTextRun, childrenOf, collectL, collectN, textContentL, textContentN]
  | some r =>
    simp [runText, mkTextRun, childrenOf, collectL, collectN, h r rfl, textContentL, textContentN]

theorem runText_mkBrRun (rPr : Option XNode)
    (h : ∀ r, rPr = some r → collectN "w:t" r = []) :
    runText (mkBrRun rPr) = [] := by
  cases rPr with
  | none => simp [runText, mkBrRun, childrenOf, collectL, collectN]
  | some r => simp [runText, mkBrRun, childrenOf, collectL, collectN, h r rfl]

theorem runsText_runsOfLines (rPr : Option XNode)
    (h : ∀ r, rPr = some r → collectN "w:t" r = []) (segs : List Str) :
    runsText (runsOfLines rPr segs) = segs.flatten := by
  match segs with
  | [] => simp [runsOfLines, runsText]
  | [l] =>
    by_cases hl : l.length > 0 <;>
      simp_all [runsOfLines, runsText, runText_mkTextRun rPr l h, List.length_eq_zero]
  | l :: l2 :: rest =>
    have ih := runsText_runsOfLines rPr h (l2 :: rest)
    by_cases hl : l.length > 0 <;>
      simp_all [runsOfLines, runsText, runText_mkTextRun rPr l h, runText_mkBrRun rPr h,
        List.length_eq_zero]

theorem runsText_createTextRuns (text : Str) (rPr : Option XNode)
    (h : ∀ r, rPr = some r → collectN "w:t" r = []) :
    runsText (createTextRuns text rPr) = text.filter (fun c => !(c == '\n')) := by
  unfold createTextRuns
  by_cases he : runsOfLines rPr (splitNl text) = []
  · rcases (runsOfLines_eq_nil_iff rPr (splitNl text)).1 he with h1 | h1
    · exact absurd h1 (splitNl_ne_nil text)
    · have : text = [] := (splitNl_eq_single_iff text).1 h1
      subst this
      simp [he, runsText, runText_mkTextRun rPr [] h]
  · simp only [List.isEmpty_iff, he, if_false]
    rw [runsText_runsOfLines rPr h, splitNl_flatten]

/-! ## Specification-side description of the text-to-runs expansion (claim C4) -/

/-- Modelled from the spec wording of the text-to-runs expansion: split
`edit.text` on newlines, emit a text run for each non-empty segment,
alternate the segments with line-break runs, and emit exactly one empty text
run when the whole text is empty. -/
def specTextRuns (rPr : Option XNode) (text : Str) : List XNode :=
  if text = [] then [mkTextRun rPr []]
  else
    (((splitNl text).map
        (fun seg => if seg = [] then ([] : List XNode) else [mkTextRun rPr seg])).intersperse
      [mkBrRun rPr]).flatten

theorem runsOfLines_eq_spec (rPr : Option XNode) (segs : List Str) :
    runsOfLines rPr segs =
      ((segs.map (fun seg => if seg = [] then ([] : List XNode) else [mkTextRun rPr seg])).intersperse
        [mkBrRun rPr]).flatten := by
  match segs with
  | [] => simp [runsOfLines]
  | [l] =>
    by_cases h : l = []
    · simp [runsOfLines, h]
    · have : l.length > 0 := by
        cases l with
        | nil => simp at h
        | cons a as => simp
      simp [runsOfLines, h, this]
  | l :: l2 :: rest =>
    have ih := runsOfLines_eq_spec rPr (l2 :: rest)
    by_cases h : l = []
    · have : ¬ l.length > 0 := by simp [h]
      simp only [runsOfLines, this, if_false, List.map_cons, List.intersperse_cons_cons,
        List.flatten_cons, ih, h, if_pos rfl]
      simp
    · have : l.length > 0 := by
        cases l with
        | nil => simp at h
        | cons a as => simp
      simp only [runsOfLines, this, if_pos, List.map_cons, List.intersperse_cons_cons,
        List.flatten_cons, ih, h, if_neg h]
      simp

theorem createTextRuns_empty_iff (text : Str) (rPr : Option XNode) :
    runsOfLines rPr (splitNl text) = [] ↔ text = [] := by
  rw [runsOfLines_eq_nil_iff]
  constructor
  · intro h
    rcases h with h | h
    · exact absurd h (splitNl_ne_nil text)
    · exact (splitNl_eq_single_iff text).1 h
  · intro h
    right
    exact (splitNl_eq_single_iff text).2 h

/-! ## The two normalizers are value-level identities -/

theorem setAttr_self (n v : String) (a : List (String × String)) (h : getAttr n a = some v) :
    setAttr n v a = a := by
  induction a with
  | nil => simp [getAttr, List.lookup] at h
  | cons kv rest ih =>
    obtain ⟨k, w⟩ := kv
    by_cases hk : n = k
    · subst hk
      simp [getAttr, List.lookup] at h
      simp [setAttr, h]
    · have hk2 : (n == k) = false := by simp [hk]
      simp [getAttr, List.lookup, hk2] at h
      have hk3 : ¬ (k = n) := fun hh => hk hh.symm
      simp [setAttr, hk3]
      exact ih h

theorem resetAttr1_id (y : XNode) (n : String) : resetAttr1 y n = y := by
  cases y with
  | txt s => rfl
  | elem tg a ch =>
    unfold resetAttr1
    cases hv : getAttr n a with
    | none => simp [hv]
    | some v =>
      by_cases h : v = ""
      · simp [hv, h]
      · simp [hv, h, setAttr_self n v a hv]

theorem resetAttrsN_id (names : List String) (x : XNode) : resetAttrsN names x = x := by
  induction names generalizing x with
  | nil => rfl
  | cons n rest ih =>
    unfold resetAttrsN at *
    simp only [List.foldl_cons, resetAttr1_id]
    exact ih x

theorem updL_id_of_pointwise (t : String) (f : XNode → XNode) (hf : ∀ x, f x = x)
    (l : List XNode) : ∀ c, (updL t f c l).1 = l := by
  induction l using xlist_ind with
  | hnil => intro c; rfl
  | htxt s xs ih =>
    intro c
    cases c with
    | none => simp [updL, updN, ih]
    | some n => simp [updL, updN, ih]
  | helem tg a ch xs ih1 ih2 =>
    intro c
    cases c with
    | none => simp [updL, updN, ih2]
    | some n =>
      by_cases h : tg = t
      · by_cases hn : n = 0
        · simp [updL, updN, h, hn, hf, ih2]
        · simp [updL, updN, h, hn, ih1, ih2]
      · simp [updL, updN, h, ih1, ih2]

theorem normalizeRunProperties_id (rPr : XNode) : normalizeRunProperties rPr = rPr := by
  cases rPr with
  | txt s => rfl
  | elem tg a ch =>
    simp [normalizeRunProperties, updFirstTag,
      updL_id_of_pointwise _ _ (resetAttrsN_id _), resetAttrsN_id]

theorem normalizeParagraphProperties_id (pPr : XNode) :
    normalizeParagraphProperties pPr = pPr := by
  cases pPr with
  | txt s => rfl
  | elem tg a ch =>
    simp [normalizeParagraphProperties, updFirstTag,
      updL_id_of_pointwise _ _ (resetAttrsN_id _), resetAttrsN_id]

/-! ## Counting and membership lemmas -/

theorem countL_append (t : String) (l m : List XNode) :
    countL t (l ++ m) = countL t l + countL t m := by
  induction l with
  | nil => simp [countL]
  | cons x xs ih => simp [countL, ih]; omega

theorem collectL_append (t : String) (l m : List XNode) :
    collectL t (l ++ m) = collectL t l ++ collectL t m := by
  induction l with
  | nil => simp [collectL]
  | cons x xs ih => simp [collectL, ih]

theorem collectL_nil_of_count_zero (t : String) (l : List XNode) (h : countL t l = 0) :
    collectL t l = [] := by
  have := countL_eq_length_collectL t l
  rw [h] at this
  exact (List.length_eq_zero.1 this.symm)

theorem hasTag_of_mem_collectL (t : String) (l : List XNode) :
    ∀ y ∈ collectL t l, hasTag t y = true := by
  induction l using xlist_ind with
  | hnil => simp [collectL]
  | htxt s xs ih => simpa [collectL, collectN] using ih
  | helem tg a ch xs ih1 ih2 =>
    intro y hy
    simp only [collectL, collectN, List.mem_append] at hy
    rcases hy with (hy | hy) | hy
    · by_cases h : tg = t
      · rw [if_pos h] at hy
        simp only [List.mem_singleton] at hy
        subst hy
        simp [hasTag, h]
      · rw [if_neg h] at hy
        simp at hy
    · exact ih1 y hy
    · exact ih2 y hy

theorem countL_children_le_countN (p : String) (x : XNode) :
    countL p (childrenOf x) ≤ countN p x := by
  cases x with
  | txt s => simp [childrenOf, countL, countN]
  | elem tg a ch =>
    simp only [childrenOf, countN]
    omega

theorem countN_le_of_mem_collectL (p t : String) (l : List XNode) :
    ∀ y ∈ collectL t l, countN p y ≤ countL p l := by
  induction l using xlist_ind with
  | hnil => simp [collectL]
  | htxt s xs ih => simpa [collectL, collectN, countL, countN] using ih
  | helem tg a ch xs ih1 ih2 =>
    intro y hy
    have hsum : countL p (XNode.elem tg a ch :: xs) =
        countN p (XNode.elem tg a ch) + countL p xs := by
      simp [countL]
    have hch : countL p ch ≤ countN p (XNode.elem tg a ch) := by
      simp only [countN]
      omega
    simp only [collectL, collectN, List.mem_append] at hy
    rcases hy with (hy | hy) | hy
    · by_cases h : tg = t
      · rw [if_pos h] at hy
        simp only [List.mem_singleton] at hy
        subst hy
        omega
      · rw [if_neg h] at hy
        simp at hy
    · have h1 := ih1 y hy
      omega
    · have h1 := ih2 y hy
      omega

theorem collectN_self (t : String) (x : XNode) (h1 : hasTag t x = true)
    (h2 : countL t (childrenOf x) = 0) : collectN t x = [x] := by
  cases x with
  | txt s => simp [hasTag] at h1
  | elem tg a ch =>
    simp only [hasTag, beq_iff_eq] at h1
    simp only [childrenOf] at h2
    simp [collectN, h1, collectL_nil_of_count_zero t ch h2]

/-! ## Counting through removal and run creation -/

theorem countL_removeAllTagL_le (p t : String) (l : List XNode) :
    countL p (removeAllTagL t l) ≤ countL p l := by
  induction l using xlist_ind with
  | hnil => simp [removeAllTagL]
  | htxt s xs ih => simpa [removeAllTagL, remAllN, countL, countN] using ih
  | helem tg a ch xs ih1 ih2 =>
    by_cases h : tg = t
    · simp only [removeAllTagL, remAllN, if_pos h]
      have : countL p xs ≤ countL p (XNode.elem tg a ch :: xs) := by
        simp only [countL]
        omega
      omega
    · simp only [removeAllTagL, remAllN, if_neg h]
      simp only [countL, countN]
      have := ih1
      have := ih2
      omega

theorem countL_removeAllTagL_zero (p t : String) (l : List XNode) (h : countL p l = 0) :
    countL p (removeAllTagL t l) = 0 := by
  have := countL_removeAllTagL_le p t l
  omega

theorem removeAllTagL_of_count_zero (t : String) (l : List XNode) :
    countL t l = 0 → removeAllTagL t l = l := by
  induction l using xlist_ind with
  | hnil => simp [removeAllTagL]
  | htxt s xs ih =>
    intro h
    simp only [countL, countN] at h
    simp [removeAllTagL, remAllN, ih (by omega)]
  | helem tg a ch xs ih1 ih2 =>
    intro h
    simp only [countL, countN] at h
    have htg : ¬ (tg = t) := by
      by_contra hc
      rw [if_pos hc] at h
      omega
    rw [if_neg htg] at h
    have hch : countL t ch = 0 := by omega
    have hxs : countL t xs = 0 := by omega
    simp [removeAllTagL, remAllN, htg, ih1 hch, ih2 hxs]

theorem countN_mkTextRun (p : String) (rPr : Option XNode) (line : Str)
    (hp1 : p ≠ "w:r") (hp2 : p ≠ "w:t")
    (hrPr : ∀ r, rPr = some r → countN p r = 0) :
    countN p (mkTextRun rPr line) = 0 := by
  cases rPr with
  | none =>
    simp [mkTextRun, countN, countL, Ne.symm hp1, Ne.symm hp2]
  | some r =>
    simp [mkTextRun, countN, countL, Ne.symm hp1, Ne.symm hp2, hrPr r rfl]

theorem countN_mkBrRun (p : String) (rPr : Option XNode)
    (hp1 : p ≠ "w:r") (hp3 : p ≠ "w:br")
    (hrPr : ∀ r, rPr = some r → countN p r = 0) :
    countN p (mkBrRun rPr) = 0 := by
  cases rPr with
  | none => simp [mkBrRun, countN, countL, Ne.symm hp1, Ne.symm hp3]
  | some r => simp [mkBrRun, countN, countL, Ne.symm hp1, Ne.symm hp3, hrPr r rfl]

theorem countL_runsOfLines (p : String) (rPr : Option XNode) (segs : List Str)
    (hp1 : p ≠ "w:r") (hp2 : p ≠ "w:t") (hp3 : p ≠ "w:br")
    (hrPr : ∀ r, rPr = some r → countN p r = 0) :
    countL p (runsOfLines rPr segs) = 0 := by
  match segs with
  | [] => simp [runsOfLines, countL]
  | [l] =>
    by_cases h : l.length > 0 <;>
      simp [runsOfLines, h, countL, countN_mkTextRun p rPr l hp1 hp2 hrPr]
  | l :: l2 :: rest =>
    have ih := countL_runsOfLines p rPr (l2 :: rest) hp1 hp2 hp3 hrPr
    by_cases h : l.length > 0 <;>
      simp [runsOfLines, h, countL_append, countL, countN_mkTextRun p rPr l hp1 hp2 hrPr,
        countN_mkBrRun p rPr hp1 hp3 hrPr, ih]

theorem countL_createTextRuns (p : String) (text : Str) (rPr : Option XNode)
    (hp1 : p ≠ "w:r") (hp2 : p ≠ "w:t") (hp3 : p ≠ "w:br")
    (hrPr : ∀ r, rPr = some r → countN p r = 0) :
    countL p (createTextRuns text rPr) = 0 := by
  unfold createTextRuns
  by_cases he : (runsOfLines rPr (splitNl text)).isEmpty
  · simp [he, countL, countN_mkTextRun p rPr [] hp1 hp2 hrPr]
  · simp [he, countL_runsOfLines p rPr (splitNl text) hp1 hp2 hp3 hrPr]

/-! ## Lemmas about the positional update -/

theorem updL_none (t : String) (f : XNode → XNode) (l : List XNode) :
    updL t f none l = (l, none) := by
  induction l with
  | nil => rfl
  | cons x xs ih => simp [updL, updN, ih]

theorem updL_length (t : String) (f : XNode → XNode) (l : List XNode) :
    ∀ c, (updL t f c l).1.length = l.length := by
  induction l with
  | nil => intro c; rfl
  | cons x xs ih =>
    intro c
    simp [updL, ih]

theorem updL_zero (t : String) (f : XNode → XNode) (l : List XNode) (h : countL t l = 0) :
    ∀ c, updL t f c l = (l, c) := by
  induction l using xlist_ind with
  | hnil => intro c; rfl
  | htxt s xs ih =>
    intro c
    simp only [countL, countN] at h
    cases c with
    | none => simp [updL, updN, updL_none]
    | some n => simp [updL, updN, ih (by omega)]
  | helem tg a ch xs ih1 ih2 =>
    intro c
    simp only [countL, countN] at h
    have htg : ¬ (tg = t) := by
      by_contra hc
      rw [if_pos hc] at h
      omega
    rw [if_neg htg] at h
    cases c with
    | none => simp [updL, updN, updL_none]
    | some n =>
      simp [updL, updN, htg, ih1 (by omega), ih2 (by omega)]

theorem updN_zero (t : String) (f : XNode → XNode) (x : XNode) (h : countN t x = 0) :
    ∀ c, updN t f c x = (x, c) := by
  intro c
  have h1 : countL t [x] = 0 := by simp [countL, h]
  have h2 := updL_zero t f [x] h1 c
  simp only [updL] at h2
  have h3 : (updN t f c x).1 = x := by
    have := congrArg Prod.fst h2
    simpa using this
  have h4 : (updN t f c x).2 = c := by
    have := congrArg Prod.snd h2
    simpa using this
  calc updN t f c x = ((updN t f c x).1, (updN t f c x).2) := rfl
    _ = (x, c) := by rw [h3, h4]

theorem updL_get_zero (t : String) (f : XNode → XNode) (l : List XNode) :
    ∀ (c : Option Nat) (i : Nat) (x : XNode), l[i]? = some x → countN t x = 0 →
      (updL t f c l).1[i]? = some x := by
  induction l with
  | nil => intro c i x h; simp at h
  | cons y ys ih =>
    intro c i x h hz
    cases i with
    | zero =>
      simp only [List.getElem?_cons_zero] at h
      injection h with h
      subst h
      simp [updL, updN_zero t f y hz c]
    | succ i =>
      simp only [List.getElem?_cons_succ] at h
      simp [updL, ih _ i x h hz]

theorem updL_count (t p : String) (f : XNode → XNode) (l : List XNode) :
    ∀ c, (∀ y ∈ collectL t l, countN p (f y) = countN p y) →
      countL p (updL t f c l).1 = countL p l := by
  induction l using xlist_ind with
  | hnil => intro c _; rfl
  | htxt s xs ih =>
    intro c hf
    have hf2 : ∀ y ∈ collectL t xs, countN p (f y) = countN p y := by
      intro y hy
      exact hf y (by simpa [collectL, collectN] using hy)
    cases c with
    | none => simp [updL_none]
    | some n => simp [updL, updN, countL, countN, ih _ hf2]
  | helem tg a ch xs ih1 ih2 =>
    intro c hf
    have hfch : ∀ y ∈ collectL t ch, countN p (f y) = countN p y := by
      intro y hy
      refine hf y ?_
      simp only [collectL, collectN, List.mem_append]
      left; right; exact hy
    have hfxs : ∀ y ∈ collectL t xs, countN p (f y) = countN p y := by
      intro y hy
      refine hf y ?_
      simp only [collectL, collectN, List.mem_append]
      right; exact hy
    cases c with
    | none => simp [updL_none]
    | some n =>
      by_cases h : tg = t
      · by_cases hn : n = 0
        · have hmem : XNode.elem tg a ch ∈ collectL t (XNode.elem tg a ch :: xs) := by
            simp [collectL, collectN, h]
          have hval := hf _ hmem
          simp only [updL, updN, if_pos h, if_pos hn, updL_none]
          simp only [countL]
          rw [hval]
        · simp only [updL, updN, if_pos h, if_neg hn]
          simp only [countL, countN]
          rw [ih2 _ hfxs, ih1 _ hfch]
      · simp only [updL, updN, if_neg h]
        simp only [countL, countN]
        rw [ih2 _ hfxs, ih1 _ hfch]

/-- The nested-paragraph-freedom invariant: no paragraph contains another
paragraph (true of every well-formed OOXML body, where `w:p` never nests). -/
def nestedFreeP (l : List XNode) : Prop :=
  ∀ y ∈ collectL "w:p" l, countL "w:p" (childrenOf y) = 0

theorem updL_preserves_nestedFree (f : XNode → XNode) (l : List XNode)
    (hf : ∀ x ∈ collectL "w:p" l,
      hasTag "w:p" (f x) = true ∧ countL "w:p" (childrenOf (f x)) = 0) :
    nestedFreeP l →
      ∀ c, ∀ y ∈ collectL "w:p" ((updL "w:p" f c l).1), countL "w:p" (childrenOf y) = 0 := by
  induction l using xlist_ind with
  | hnil => intro _ c y hy; simp [updL, collectL] at hy
  | htxt s xs ih =>
    intro hl c y hy
    have hl2 : nestedFreeP xs := by
      intro z hz
      exact hl z (by simpa [collectL, collectN] using hz)
    have hf2 : ∀ x ∈ collectL "w:p" xs,
        hasTag "w:p" (f x) = true ∧ countL "w:p" (childrenOf (f x)) = 0 := by
      intro x hx
      exact hf x (by simpa [collectL, collectN] using hx)
    cases c with
    | none =>
      rw [updL_none] at hy
      exact hl y hy
    | some n =>
      simp only [updL, updN] at hy
      simp only [collectL, collectN, List.nil_append] at hy
      exact ih hf2 hl2 _ y hy
  | helem tg a ch xs ih1 ih2 =>
    intro hl c y hy
    have hlch : nestedFreeP ch := by
      intro z hz
      refine hl z ?_
      simp only [collectL, collectN, List.mem_append]
      left; right; exact hz
    have hlxs : nestedFreeP xs := by
      intro z hz
      refine hl z ?_
      simp only [collectL, collectN, List.mem_append]
      right; exact hz
    have hfch : ∀ x ∈ collectL "w:p" ch,
        hasTag "w:p" (f x) = true ∧ countL "w:p" (childrenOf (f x)) = 0 := by
      intro x hx
      refine hf x ?_
      simp only [collectL, collectN, List.mem_append]
      left; right; exact hx
    have hfxs : ∀ x ∈ collectL "w:p" xs,
        hasTag "w:p" (f x) = true ∧ countL "w:p" (childrenOf (f x)) = 0 := by
      intro x hx
      refine hf x ?_
      simp only [collectL, collectN, List.mem_append]
      right; exact hx
    cases c with
    | none =>
      rw [updL_none] at hy
      exact hl y hy
    | some n =>
      by_cases h : tg = "w:p"
      · by_cases hn : n = 0
        · have hmem : XNode.elem tg a ch ∈ collectL "w:p" (XNode.elem tg a ch :: xs) := by
            simp [collectL, collectN, h]
          obtain ⟨hft, hfc⟩ := hf _ hmem
          simp only [updL, updN, if_pos h, if_pos hn, updL_none] at hy
          simp only [collectL, List.mem_append] at hy
          rcases hy with hy | hy
          · rw [collectN_self "w:p" _ hft hfc] at hy
            simp only [List.mem_singleton] at hy
            subst hy
            exact hfc
          · exact hlxs y hy
        · have hself : countL "w:p" ch = 0 := by
            refine hl (XNode.elem tg a ch) ?_
            simp [collectL, collectN, h]
          simp only [updL, updN, if_pos h, if_neg hn] at hy
          rw [updL_zero _ f ch hself] at hy
          simp only [collectL, collectN, List.mem_append] at hy
          rcases hy with (hy | hy) | hy
          · rw [if_pos h] at hy
            simp only [List.mem_singleton] at hy
            subst hy
            simpa [childrenOf] using hself
          · exact hlch y hy
          · exact ih2 hfxs hlxs _ y hy
      · simp only [updL, updN, if_neg h] at hy
        simp only [collectL, collectN, if_neg h, List.nil_append, List.mem_append] at hy
        rcases hy with hy | hy
        · exact ih1 hfch hlch _ y hy
        · exact ih2 hfxs hlxs _ y hy

/-! ## Lemmas about first-occurrence removal -/

theorem remFirstL_none_eq (t : String) (l : List XNode) :
    (remFirstL t l).2 = none → (remFirstL t l).1 = l := by
  induction l using xlist_ind with
  | hnil => intro _; rfl
  | htxt s xs ih =>
    intro h
    rcases hx : remFirstL t xs with ⟨xs2, rx⟩
    cases rx with
    | some r => simp [remFirstL, remFirstN, hx] at h
    | none =>
      have hih := ih (by rw [hx])
      rw [hx] at hih
      simp only at hih
      simp [remFirstL, remFirstN, hx, hih]
  | helem tg a ch xs ih1 ih2 =>
    intro h
    by_cases htg : tg = t
    · simp [remFirstL, remFirstN, htg] at h
    · rcases hc : remFirstL t ch with ⟨ch2, rc⟩
      cases rc with
      | some r => simp [remFirstL, remFirstN, htg, hc] at h
      | none =>
        rcases hx : remFirstL t xs with ⟨xs2, rx⟩
        cases rx with
        | some r => simp [remFirstL, remFirstN, htg, hc, hx] at h
        | none =>
          have hih := ih2 (by rw [hx])
          rw [hx] at hih
          simp only at hih
          simp [remFirstL, remFirstN, htg, hc, hx, hih]

theorem remFirstL_none_of_zero (t : String) (l : List XNode) (h : countL t l = 0) :
    (remFirstL t l).2 = none := by
  induction l using xlist_ind with
  | hnil => rfl
  | htxt s xs ih =>
    simp only [countL, countN] at h
    have hih := ih (by omega)
    rcases hx : remFirstL t xs with ⟨xs2, rx⟩
    rw [hx] at hih
    simp only at hih
    subst hih
    simp [remFirstL, remFirstN, hx]
  | helem tg a ch xs ih1 ih2 =>
    simp only [countL, countN] at h
    have htg : ¬ (tg = t) := by
      by_contra hc
      rw [if_pos hc] at h
      omega
    rw [if_neg htg] at h
    have hch := ih1 (by omega)
    have hxs := ih2 (by omega)
    rcases hc : remFirstL t ch with ⟨ch2, rc⟩
    rw [hc] at hch
    simp only at hch
    subst hch
    rcases hx : remFirstL t xs with ⟨xs2, rx⟩
    rw [hx] at hxs
    simp only at hxs
    subst hxs
    simp [remFirstL, remFirstN, htg, hc, hx]

theorem remFirstL_count (p t : String) (l : List XNode) :
    ∀ l2 r, remFirstL t l = (l2, some r) → countL p l = countL p l2 + countN p r := by
  induction l using xlist_ind with
  | hnil => intro l2 r h; simp [remFirstL] at h
  | htxt s xs ih =>
    intro l2 r h
    rcases hx : remFirstL t xs with ⟨xs2, rx⟩
    cases rx with
    | none => simp [remFirstL, remFirstN, hx] at h
    | some r2 =>
      simp only [remFirstL, remFirstN, hx] at h
      injection h with h1 h2
      injection h2 with h2
      subst h1
      subst h2
      have := ih xs2 r2 hx
      simp only [countL, countN, this]
      omega
  | helem tg a ch xs ih1 ih2 =>
    intro l2 r h
    by_cases htg : tg = t
    · simp only [remFirstL, remFirstN, if_pos htg] at h
      injection h with h1 h2
      injection h2 with h2
      subst h1
      subst h2
      simp only [countL]
      omega
    · rcases hc : remFirstL t ch with ⟨ch2, rc⟩
      cases rc with
      | some r2 =>
        simp only [remFirstL, remFirstN, if_neg htg, hc] at h
        injection h with h1 h2
        injection h2 with h2
        subst h1
        subst h2
        have := ih1 ch2 r2 hc
        simp only [countL, countN, this]
        omega
      | none =>
        rcases hx : remFirstL t xs with ⟨xs2, rx⟩
        cases rx with
        | none => simp [remFirstL, remFirstN, if_neg htg, hc, hx] at h
        | some r2 =>
          simp only [remFirstL, remFirstN, if_neg htg, hc, hx] at h
          injection h with h1 h2
          injection h2 with h2
          subst h1
          subst h2
          have := ih2 xs2 r2 hx
          simp only [countL, countN, this]
          omega

/-! ## Effect of the in-place paragraph rewrite on counts -/

theorem option_rPr_count_zero (p : String) (ch : List XNode) (h : countL p ch = 0)
    (r0 : XNode) (hr0 : (collectL "w:r" ch).head? = some r0) :
    ∀ r, ((collectL "w:rPr" (childrenOf r0)).head?).map normalizeRunProperties = some r →
      countN p r = 0 := by
  intro r hr
  have hmem0 : r0 ∈ collectL "w:r" ch := List.mem_of_mem_head? hr0
  have h0 : countN p r0 ≤ countL p ch := countN_le_of_mem_collectL p "w:r" ch r0 hmem0
  cases hpr : (collectL "w:rPr" (childrenOf r0)).head? with
  | none => simp [hpr] at hr
  | some rPr0 =>
    rw [hpr] at hr
    simp at hr
    rw [normalizeRunProperties_id] at hr
    have hmem1 : rPr0 ∈ collectL "w:rPr" (childrenOf r0) := List.mem_of_mem_head? hpr
    have h1 : countN p rPr0 ≤ countL p (childrenOf r0) :=
      countN_le_of_mem_collectL p "w:rPr" (childrenOf r0) rPr0 hmem1
    have h2 := countL_children_le_countN p r0
    subst hr
    omega

theorem countN_replaceParaRuns_zero (p : String) (text : Str)
    (hp1 : p ≠ "w:r") (hp2 : p ≠ "w:t") (hp3 : p ≠ "w:br") (x : XNode)
    (hx : countN p x = 0) : countN p (replaceParaRuns text x) = 0 := by
  cases x with
  | txt s =>
    rw [show replaceParaRuns text (XNode.txt s) = XNode.txt s from rfl]
    exact hx
  | elem tg a ch =>
    have htg : ¬ (tg = p) := by
      by_contra hc
      simp [countN, hc] at hx
    have hch : countL p ch = 0 := by
      simp only [countN, if_neg htg] at hx
      omega
    cases hr : (collectL "w:r" ch).head? with
    | none =>
      simp only [replaceParaRuns, hr, countN, if_neg htg]
      rw [countL_append, hch,
        countL_createTextRuns p text none hp1 hp2 hp3 (by intro r hr2; simp at hr2)]
    | some r0 =>
      simp only [replaceParaRuns, hr, countN, if_neg htg]
      rw [countL_append, countL_removeAllTagL_zero p "w:r" ch hch,
        countL_createTextRuns p text _ hp1 hp2 hp3 (option_rPr_count_zero p ch hch r0 hr)]

theorem replaceParaRuns_keeps_para (text : Str) (x : XNode)
    (ht : hasTag "w:p" x = true) (hc : countL "w:p" (childrenOf x) = 0) :
    hasTag "w:p" (replaceParaRuns text x) = true ∧
      countL "w:p" (childrenOf (replaceParaRuns text x)) = 0 := by
  cases x with
  | txt s => simp [hasTag] at ht
  | elem tg a ch =>
    simp only [childrenOf] at hc
    have hwp : ("w:p" : String) ≠ "w:r" := by decide
    have hwt : ("w:p" : String) ≠ "w:t" := by decide
    have hwb : ("w:p" : String) ≠ "w:br" := by decide
    cases hr : (collectL "w:r" ch).head? with
    | none =>
      simp only [replaceParaRuns, hr]
      refine ⟨ht, ?_⟩
      simp only [childrenOf_elem]
      rw [countL_append, hc,
        countL_createTextRuns "w:p" text none hwp hwt hwb (by intro r hr2; simp at hr2)]
    | some r0 =>
      simp only [replaceParaRuns, hr]
      refine ⟨ht, ?_⟩
      simp only [childrenOf_elem]
      rw [countL_append, countL_removeAllTagL_zero "w:p" "w:r" ch hc,
        countL_createTextRuns "w:p" text _ hwp hwt hwb (option_rPr_count_zero "w:p" ch hc r0 hr)]

theorem countN_replaceParaRuns_para (text : Str) (x : XNode)
    (ht : hasTag "w:p" x = true) (hc : countL "w:p" (childrenOf x) = 0) :
    countN "w:p" (replaceParaRuns text x) = countN "w:p" x := by
  obtain ⟨h1, h2⟩ := replaceParaRuns_keeps_para text x ht hc
  cases x with
  | txt s => simp [hasTag] at ht
  | elem tg a ch =>
    cases hy : replaceParaRuns text (XNode.elem tg a ch) with
    | txt s2 => rw [hy] at h1; simp [hasTag] at h1
    | elem tg2 a2 ch2 =>
      rw [hy] at h1 h2
      simp only [hasTag, beq_iff_eq] at h1 ht
      simp only [childrenOf_elem] at h2 hc
      simp [countN, h1, ht, h2, hc]

/-! ## The first rebuild pass preserves paragraph structure -/

theorem applyEditsE_ok_shape (pm : List (String × Nat)) (n : Nat) :
    ∀ (edits : List Edit) (b b2 : List XNode), applyEditsE pm n edits b = .ok b2 →
      (nestedFreeP b → countL "w:p" b2 = countL "w:p" b ∧ nestedFreeP b2) := by
  intro edits
  induction edits with
  | nil =>
    intro b b2 h hb
    simp only [applyEditsE] at h
    injection h with h
    subst h
    exact ⟨rfl, hb⟩
  | cons e rest ih =>
    intro b b2 h hb
    simp only [applyEditsE] at h
    cases he : e.id with
    | none =>
      simp only [he] at h
      exact ih b b2 h hb
    | some s =>
      simp only [he] at h
      by_cases hs : s = ""
      · rw [if_pos hs] at h
        exact ih b b2 h hb
      · rw [if_neg hs] at h
        cases hl : pm.lookup s with
        | none =>
          simp only [hl] at h
          exact ih b b2 h hb
        | some idx =>
          simp only [hl] at h
          by_cases hidx : idx < n
          · rw [if_pos hidx] at h
            have hmemprops : ∀ y ∈ collectL "w:p" b,
                hasTag "w:p" (replaceParaRuns e.text y) = true ∧
                  countL "w:p" (childrenOf (replaceParaRuns e.text y)) = 0 := by
              intro y hy
              exact replaceParaRuns_keeps_para e.text y
                (hasTag_of_mem_collectL "w:p" b y hy) (hb y hy)
            have hcount : countL "w:p" (updateParaAt idx (replaceParaRuns e.text) b) =
                countL "w:p" b := by
              apply updL_count
              intro y hy
              exact countN_replaceParaRuns_para e.text y
                (hasTag_of_mem_collectL "w:p" b y hy) (hb y hy)
            have hnf : nestedFreeP (updateParaAt idx (replaceParaRuns e.text) b) :=
              updL_preserves_nestedFree (replaceParaRuns e.text) b hmemprops hb (some idx)
            obtain ⟨hc2, hn2⟩ := ih _ b2 h hnf
            exact ⟨by rw [hc2, hcount], hn2⟩
          · rw [if_neg hidx] at h
            simp at h

theorem applyEditsE_zero (pm : List (String × Nat)) (n : Nat) (p : String)
    (hp1 : p ≠ "w:r") (hp2 : p ≠ "w:t") (hp3 : p ≠ "w:br") :
    ∀ (edits : List Edit) (b b2 : List XNode), applyEditsE pm n edits b = .ok b2 →
      countL p b = 0 → countL p b2 = 0 := by
  intro edits
  induction edits with
  | nil =>
    intro b b2 h hz
    simp only [applyEditsE] at h
    injection h with h
    subst h
    exact hz
  | cons e rest ih =>
    intro b b2 h hz
    simp only [applyEditsE] at h
    cases he : e.id with
    | none =>
      simp only [he] at h
      exact ih b b2 h hz
    | some s =>
      simp only [he] at h
      by_cases hs : s = ""
      · rw [if_pos hs] at h
        exact ih b b2 h hz
      · rw [if_neg hs] at h
        cases hl : pm.lookup s with
        | none =>
          simp only [hl] at h
          exact ih b b2 h hz
        | some idx =>
          simp only [hl] at h
          by_cases hidx : idx < n
          · rw [if_pos hidx] at h
            have hz2 : countL p (updateParaAt idx (replaceParaRuns e.text) b) = 0 := by
              have := updL_count "w:p" p (replaceParaRuns e.text) b (some idx) ?_
              · rw [show updateParaAt idx (replaceParaRuns e.text) b =
                  (updL "w:p" (replaceParaRuns e.text) (some idx) b).1 from rfl, this, hz]
              · intro y hy
                have hy1 : countN p y ≤ countL p b := countN_le_of_mem_collectL p "w:p" b y hy
                have hy2 : countN p (replaceParaRuns e.text y) = 0 :=
                  countN_replaceParaRuns_zero p e.text hp1 hp2 hp3 y (by omega)
                omega
            exact ih _ b2 h hz2
          · rw [if_neg hidx] at h
            simp at h

theorem applyEditsE_length (pm : List (String × Nat)) (n : Nat) :
    ∀ (edits : List Edit) (b b2 : List XNode), applyEditsE pm n edits b = .ok b2 →
      b2.length = b.length := by
  intro edits
  induction edits with
  | nil =>
    intro b b2 h
    simp only [applyEditsE] at h
    injection h with h
    subst h
    rfl
  | cons e rest ih =>
    intro b b2 h
    simp only [applyEditsE] at h
    cases he : e.id with
    | none =>
      simp only [he] at h
      exact ih b b2 h
    | some s =>
      simp only [he] at h
      by_cases hs : s = ""
      · rw [if_pos hs] at h
        exact ih b b2 h
      · rw [if_neg hs] at h
        cases hl : pm.lookup s with
        | none =>
          simp only [hl] at h
          exact ih b b2 h
        | some idx =>
          simp only [hl] at h
          by_cases hidx : idx < n
          · rw [if_pos hidx] at h
            rw [ih _ b2 h]
            exact updL_length "w:p" (replaceParaRuns e.text) b (some idx)
          · rw [if_neg hidx] at h
            simp at h

theorem applyEditsE_get_zero (pm : List (String × Nat)) (n : Nat) :
    ∀ (edits : List Edit) (b b2 : List XNode), applyEditsE pm n edits b = .ok b2 →
      ∀ (i : Nat) (x : XNode), b[i]? = some x → countN "w:p" x = 0 → b2[i]? = some x := by
  intro edits
  induction edits with
  | nil =>
    intro b b2 h i x hi hz
    simp only [applyEditsE] at h
    injection h with h
    subst h
    exact hi
  | cons e rest ih =>
    intro b b2 h i x hi hz
    simp only [applyEditsE] at h
    cases he : e.id with
    | none =>
      simp only [he] at h
      exact ih b b2 h i x hi hz
    | some s =>
      simp only [he] at h
      by_cases hs : s = ""
      · rw [if_pos hs] at h
        exact ih b b2 h i x hi hz
      · rw [if_neg hs] at h
        cases hl : pm.lookup s with
        | none =>
          simp only [hl] at h
          exact ih b b2 h i x hi hz
        | some idx =>
          simp only [hl] at h
          by_cases hidx : idx < n
          · rw [if_pos hidx] at h
            exact ih _ b2 h i x
              (updL_get_zero "w:p" (replaceParaRuns e.text) b (some idx) i x hi hz) hz
          · rw [if_neg hidx] at h
            simp at h

/-! ## Counting through `ensureDocumentStructure` -/

theorem countN_fillSpacingAttrs (p : String) (x : XNode) :
    countN p (fillSpacingAttrs x) = countN p x := by
  cases x with
  | txt s => rfl
  | elem tg a ch => simp [fillSpacingAttrs, countN]

theorem countN_fixPPr (p : String) (hp : p ≠ "w:spacing") (y : XNode) :
    countN p (fixPPr y) = countN p y := by
  cases y with
  | txt s => rfl
  | elem tg a ch =>
    cases hsp : (collectL "w:spacing" ch).head? with
    | none =>
      simp only [fixPPr, hsp, countN]
      rw [countL_append]
      have h1 : countN p (fillSpacingAttrs (XNode.elem "w:spacing" [] [])) = 0 := by
        rw [countN_fillSpacingAttrs]
        simp [countN, countL, Ne.symm hp]
      simp [countL, h1]
    | some sp =>
      simp only [fixPPr, hsp, countN]
      rw [show updFirstTag "w:spacing" fillSpacingAttrs ch =
        (updL "w:spacing" fillSpacingAttrs (some 0) ch).1 from rfl]
      rw [updL_count "w:spacing" p fillSpacingAttrs ch (some 0)
        (fun y _ => countN_fillSpacingAttrs p y)]

theorem countN_ensureParaSpacing (p : String) (hp : p ≠ "w:spacing") (x : XNode) :
    countN p (ensureParaSpacing x) = countN p x := by
  cases x with
  | txt s => rfl
  | elem tg a ch =>
    cases hpp : (collectL "w:pPr" ch).head? with
    | none => simp [ensureParaSpacing, hpp]
    | some pPr =>
      simp only [ensureParaSpacing, hpp, countN]
      rw [show updFirstTag "w:pPr" fixPPr ch = (updL "w:pPr" fixPPr (some 0) ch).1 from rfl]
      rw [updL_count "w:pPr" p fixPPr ch (some 0) (fun y _ => countN_fixPPr p hp y)]

theorem foldl_ensure_count (p : String) (hp : p ≠ "w:spacing") (idxs : List Nat) :
    ∀ acc, countL p (idxs.foldl (fun acc i => updateParaAt i ensureParaSpacing acc) acc) =
      countL p acc := by
  induction idxs with
  | nil => intro acc; rfl
  | cons i rest ih =>
    intro acc
    simp only [List.foldl_cons]
    rw [ih]
    exact updL_count "w:p" p ensureParaSpacing acc (some i)
      (fun y _ => countN_ensureParaSpacing p hp y)

theorem foldl_ensure_get_zero (idxs : List Nat) :
    ∀ acc (i : Nat) (x : XNode), acc[i]? = some x → countN "w:p" x = 0 →
      ((idxs.foldl (fun acc i => updateParaAt i ensureParaSpacing acc) acc))[i]? = some x := by
  induction idxs with
  | nil => intro acc i x h _; exact h
  | cons j rest ih =>
    intro acc i x h hz
    simp only [List.foldl_cons]
    exact ih _ i x (updL_get_zero "w:p" ensureParaSpacing acc (some j) i x h hz) hz

theorem foldl_ensure_length (idxs : List Nat) :
    ∀ acc, ((idxs.foldl (fun acc i => updateParaAt i ensureParaSpacing acc) acc)).length =
      acc.length := by
  induction idxs with
  | nil => intro acc; rfl
  | cons j rest ih =>
    intro acc
    simp only [List.foldl_cons]
    rw [ih]
    exact updL_length "w:p" ensureParaSpacing acc (some j)

theorem ensureDocumentStructure_count (p : String) (hp : p ≠ "w:spacing") (body : List XNode) :
    countL p (ensureDocumentStructure body) = countL p body := by
  unfold ensureDocumentStructure
  rcases hrf : remFirstL "w:sectPr" body with ⟨rest, r⟩
  cases r with
  | none =>
    simp only
    rw [foldl_ensure_count p hp]
  | some sp =>
    simp only
    rw [foldl_ensure_count p hp, countL_append,
      remFirstL_count p "w:sectPr" body rest sp hrf]
    simp [countL]

theorem ensureDocumentStructure_frame (body : List XNode)
    (hsect : countL "w:sectPr" body = 0) :
    (ensureDocumentStructure body).length = body.length ∧
      ∀ (i : Nat) (x : XNode), body[i]? = some x → countN "w:p" x = 0 →
        (ensureDocumentStructure body)[i]? = some x := by
  unfold ensureDocumentStructure
  rcases hrf : remFirstL "w:sectPr" body with ⟨rest, r⟩
  cases r with
  | some sp =>
    have := remFirstL_none_of_zero "w:sectPr" body hsect
    rw [hrf] at this
    simp at this
  | none =>
    simp only
    exact ⟨foldl_ensure_length _ body, fun i x h hz => foldl_ensure_get_zero _ body i x h hz⟩

/-! ## Counting through the insertion pass -/

theorem insertAfterOrig_count (newP : XNode) :
    ∀ (j : Nat) (ann r : List (Bool × XNode)), insertAfterOrig newP j ann = .ok r →
      countL "w:p" (r.map (fun bx => bx.2)) =
        countL "w:p" (ann.map (fun bx => bx.2)) + countN "w:p" newP := by
  intro j ann
  induction ann generalizing j with
  | nil => intro r h; simp [insertAfterOrig] at h
  | cons bx rest ih =>
    intro r h
    obtain ⟨isNew, x⟩ := bx
    simp only [insertAfterOrig] at h
    by_cases hnew : isNew
    · rw [if_pos hnew] at h
      cases hrec : insertAfterOrig newP j rest with
      | error e => rw [hrec] at h; simp [bind, Except.bind] at h
      | ok r2 =>
        rw [hrec] at h
        simp only [bind, Except.bind, pure, Except.pure] at h
        injection h with h
        subst h
        simp only [List.map_cons, countL]
        rw [ih j r2 hrec]
        omega
    · rw [if_neg hnew] at h
      by_cases hanch : hasTag "w:p" x && j == 0
      · rw [if_pos hanch] at h
        simp only [pure, Except.pure] at h
        injection h with h
        subst h
        simp only [List.map_cons, countL]
        omega
      · rw [if_neg hanch] at h
        by_cases hj : j < countN "w:p" x
        · rw [if_pos hj] at h
          simp at h
        · rw [if_neg hj] at h
          cases hrec : insertAfterOrig newP (j - countN "w:p" x) rest with
          | error e => rw [hrec] at h; simp [bind, Except.bind] at h
          | ok r2 =>
            rw [hrec] at h
            simp only [bind, Except.bind, pure, Except.pure] at h
            injection h with h
            subst h
            simp only [List.map_cons, countL]
            rw [ih _ r2 hrec]
            omega

theorem foldlM_insert_count (items : List (XNode × Option Nat)) :
    ∀ (ann fin : List (Bool × XNode)), (∀ it ∈ items, countN "w:p" it.1 = 1) →
      items.foldlM
        (fun acc item =>
          match item.2 with
          | none => pure ((true, item.1) :: acc)
          | some j => insertAfterOrig item.1 j acc) ann = .ok fin →
      countL "w:p" (fin.map (fun bx => bx.2)) =
        countL "w:p" (ann.map (fun bx => bx.2)) + items.length := by
  induction items with
  | nil =>
    intro ann fin _ h
    simp only [List.foldlM_nil, pure, Except.pure] at h
    injection h with h
    subst h
    simp
  | cons it rest ih =>
    intro ann fin hone h
    simp only [List.foldlM_cons] at h
    cases hit : it.2 with
    | none =>
      simp only [hit] at h
      simp only [pure, Except.pure, bind, Except.bind] at h
      have hcnt := ih ((true, it.1) :: ann) fin (fun x hx => hone x (by simp [hx])) h
      rw [hcnt]
      simp only [List.map_cons, countL]
      have h1 : countN "w:p" it.1 = 1 := hone it (by simp)
      simp only [List.length_cons]
      omega
    | some j =>
      simp only [hit] at h
      cases hins : insertAfterOrig it.1 j ann with
      | error e => rw [hins] at h; simp [bind, Except.bind] at h
      | ok ann2 =>
        rw [hins] at h
        simp only [bind, Except.bind] at h
        have hcnt := ih ann2 fin (fun x hx => hone x (by simp [hx])) h
        rw [hcnt, insertAfterOrig_count it.1 j ann ann2 hins]
        have h1 : countN "w:p" it.1 = 1 := hone it (by simp)
        simp only [List.length_cons]
        omega

theorem insertNewParas_count (items : List (XNode × Option Nat)) (body out : List XNode)
    (hone : ∀ it ∈ items, countN "w:p" it.1 = 1)
    (h : insertNewParas items body = .ok out) :
    countL "w:p" out = countL "w:p" body + items.length := by
  simp only [insertNewParas] at h
  cases hfold : items.foldlM
      (fun acc item =>
        match item.2 with
        | none => pure ((true, item.1) :: acc)
        | some j => insertAfterOrig item.1 j acc)
      (body.map (fun x => ((false : Bool), x))) with
  | error e => rw [hfold] at h; simp [bind, Except.bind] at h
  | ok fin =>
    rw [hfold] at h
    simp only [bind, Except.bind, pure, Except.pure] at h
    injection h with h
    subst h
    have := foldlM_insert_count items _ fin hone hfold
    rw [this]
    have hstrip : ((body.map (fun x => ((false : Bool), x))).map (fun bx => bx.2)) = body := by
      rw [List.map_map]
      simp
    rw [hstrip]

/-! ## New paragraphs built by the second pass contain exactly one `w:p` -/

theorem countN_basicNewPara (text : Str) :
    countN "w:p" (XNode.elem "w:p" [] (createTextRuns text none)) = 1 := by
  simp only [countN]
  rw [countL_createTextRuns "w:p" text none (by decide) (by decide) (by decide)
    (by intro r hr; simp at hr)]
  simp

theorem buildNewPara_count (pm : List (String × Nat)) (n : Nat) (body1 : List XNode)
    (e : Edit) (hb1 : nestedFreeP body1) :
    ∀ p, buildNewPara pm n body1 e = .ok p → countN "w:p" p = 1 := by
  intro p h
  unfold buildNewPara at h
  cases hin : e.inheritStyleFrom with
  | none =>
    simp only [hin] at h
    injection h with h
    subst h
    exact countN_basicNewPara e.text
  | some src =>
    simp only [hin] at h
    by_cases hsrc : src = ""
    · rw [if_pos hsrc] at h
      injection h with h
      subst h
      exact countN_basicNewPara e.text
    · rw [if_neg hsrc] at h
      cases hl : pm.lookup src with
      | none =>
        simp only [hl] at h
        injection h with h
        subst h
        exact countN_basicNewPara e.text
      | some idx =>
        simp only [hl] at h
        by_cases hidx : idx < n
        · rw [if_pos hidx] at h
          cases hget : (collectL "w:p" body1).get? idx with
          | none => simp only [hget] at h; simp at h
          | some srcEl =>
            simp only [hget] at h
            injection h with h
            subst h
            have hmem : srcEl ∈ collectL "w:p" body1 := List.get?_mem hget
            have hz : countL "w:p" (childrenOf srcEl) = 0 := hb1 srcEl hmem
            have hrPrz : ∀ r,
                (match (collectL "w:r" (childrenOf srcEl)).head? with
                  | some r0 =>
                    ((collectL "w:rPr" (childrenOf r0)).head?).map normalizeRunProperties
                  | none => none) = some r → countN "w:p" r = 0 := by
              intro r hr
              cases hr0 : (collectL "w:r" (childrenOf srcEl)).head? with
              | none => simp [hr0] at hr
              | some r0 =>
                rw [hr0] at hr
                exact option_rPr_count_zero "w:p" (childrenOf srcEl) hz r0 hr0 r hr
            have hruns : countL "w:p"
                (createTextRuns e.text
                  (match (collectL "w:r" (childrenOf srcEl)).head? with
                    | some r0 =>
                      ((collectL "w:rPr" (childrenOf r0)).head?).map normalizeRunProperties
                    | none => none)) = 0 :=
              countL_createTextRuns "w:p" e.text _ (by decide) (by decide) (by decide) hrPrz
            cases hpp : (collectL "w:pPr" (childrenOf srcEl)).head? with
            | none =>
              simp only [hpp, countN]
              rw [countL_append, hruns]
              simp [countL]
            | some pPr =>
              have hppz : countN "w:p" pPr = 0 := by
                have hmem2 : pPr ∈ collectL "w:pPr" (childrenOf srcEl) :=
                  List.mem_of_mem_head? hpp
                have := countN_le_of_mem_collectL "w:p" "w:pPr" (childrenOf srcEl) pPr hmem2
                omega
              simp only [hpp, countN]
              rw [countL_append, hruns]
              simp [countL, normalizeParagraphProperties_id, hppz]
        · rw [if_neg hidx] at h
          simp at h

theorem collectInsertsAux_props (alledits : List Edit) (pm : List (String × Nat)) (n : Nat)
    (body1 : List XNode) (hb1 : nestedFreeP body1) :
    ∀ (edits : List Edit) (k : Nat) (items : List (XNode × Option Nat)),
      collectInsertsAux alledits pm n body1 k edits = .ok items →
        items.length = edits.countP (fun e => e.id.isNone) ∧
          ∀ it ∈ items, countN "w:p" it.1 = 1 := by
  intro edits
  induction edits with
  | nil =>
    intro k items h
    simp only [collectInsertsAux] at h
    injection h with h
    subst h
    simp
  | cons e rest ih =>
    intro k items h
    simp only [collectInsertsAux] at h
    cases he : e.id with
    | some s =>
      simp only [he] at h
      obtain ⟨h1, h2⟩ := ih (k + 1) items h
      refine ⟨?_, h2⟩
      rw [h1, List.countP_cons]
      simp [he]
    | none =>
      simp only [he] at h
      cases hbp : buildNewPara pm n body1 e with
      | error msg => rw [hbp] at h; simp [bind, Except.bind] at h
      | ok p =>
        rw [hbp] at h
        simp only [bind, Except.bind] at h
        cases hanc : anchorOf alledits pm k with
        | none =>
          simp only [hanc, pure, Except.pure] at h
          cases hrec : collectInsertsAux alledits pm n body1 (k + 1) rest with
          | error msg => rw [hrec] at h; simp at h
          | ok more =>
            rw [hrec] at h
            simp only at h
            injection h with h
            subst h
            obtain ⟨h1, h2⟩ := ih (k + 1) more hrec
            constructor
            · rw [List.length_cons, h1, List.countP_cons]
              simp [he]
            · intro it hit
              rcases List.mem_cons.1 hit with hit | hit
              · subst hit
                exact buildNewPara_count pm n body1 e hb1 p hbp
              · exact h2 it hit
        | some j =>
          simp only [hanc] at h
          by_cases hj : j < n
          · rw [if_pos hj] at h
            simp only [pure, Except.pure] at h
            cases hrec : collectInsertsAux alledits pm n body1 (k + 1) rest with
            | error msg => rw [hrec] at h; simp at h
            | ok more =>
              rw [hrec] at h
              simp only at h
              injection h with h
              subst h
              obtain ⟨h1, h2⟩ := ih (k + 1) more hrec
              constructor
              · rw [List.length_cons, h1, List.countP_cons]
                simp [he]
              · intro it hit
                rcases List.mem_cons.1 hit with hit | hit
                · subst hit
                  exact buildNewPara_count pm n body1 e hb1 p hbp
                · exact h2 it hit
          · rw [if_neg hj] at h
            simp at h

/-! ## Assembly: rebuild never deletes a paragraph -/

theorem collectInsertsAux_no_inserts (alledits : List Edit) (pm : List (String × Nat))
    (n : Nat) (body1 : List XNode) :
    ∀ (edits : List Edit) (k : Nat), (∀ e ∈ edits, e.id ≠ none) →
      collectInsertsAux alledits pm n body1 k edits = .ok [] := by
  intro edits
  induction edits with
  | nil => intro k _; rfl
  | cons e rest ih =>
    intro k hno
    cases he : e.id with
    | none => exact absurd he (hno e (by simp))
    | some s =>
      simp only [collectInsertsAux, he]
      exact ih (k + 1) (fun e2 h2 => hno e2 (by simp [h2]))

theorem insertNewParas_nil (body : List XNode) : insertNewParas [] body = .ok body := by
  simp only [insertNewParas, List.foldlM_nil, bind, Except.bind, pure, Except.pure]
  rw [List.map_map]
  simp

theorem rebuild_ok_count (body : List XNode) (edits : List Edit) (pm : List (String × Nat))
    (out : List XNode) (hb : nestedFreeP body) (h : rebuild body edits pm = .ok out) :
    countL "w:p" out = countL "w:p" body + edits.countP (fun e => e.id.isNone) := by
  simp only [rebuild, bind, Except.bind] at h
  cases happ : applyEditsE pm (countL "w:p" body) edits body with
  | error e => rw [happ] at h; simp at h
  | ok body1 =>
    rw [happ] at h
    simp only at h
    cases hcoll : collectInsertsAux edits pm (countL "w:p" body) body1 0 edits with
    | error e => rw [hcoll] at h; simp at h
    | ok items =>
      rw [hcoll] at h
      simp only at h
      cases hins : insertNewParas items body1 with
      | error e => rw [hins] at h; simp at h
      | ok body2 =>
        rw [hins] at h
        simp only [pure, Except.pure] at h
        injection h with h
        subst h
        obtain ⟨hc1, hn1⟩ := applyEditsE_ok_shape pm (countL "w:p" body) edits body body1 happ hb
        obtain ⟨hlen, hone⟩ :=
          collectInsertsAux_props edits pm (countL "w:p" body) body1 hn1 edits 0 items hcoll
        have hc2 := insertNewParas_count items body1 body2 hone hins
        rw [ensureDocumentStructure_count "w:p" (by decide) body2, hc2, hc1, hlen]

/-! ## Assembly: frame property of rebuild for update-only edit lists -/

theorem rebuild_frame (body : List XNode) (edits : List Edit) (pm : List (String × Nat))
    (out : List XNode) (hsect : countL "w:sectPr" body = 0)
    (hupd : ∀ e ∈ edits, e.id ≠ none) (h : rebuild body edits pm = .ok out) :
    out.length = body.length ∧
      ∀ (i : Nat) (x : XNode), body[i]? = some x → countN "w:p" x = 0 → out[i]? = some x := by
  simp only [rebuild, bind, Except.bind] at h
  cases happ : applyEditsE pm (countL "w:p" body) edits body with
  | error e => rw [happ] at h; simp at h
  | ok body1 =>
    rw [happ] at h
    simp only at h
    rw [collectInsertsAux_no_inserts edits pm (countL "w:p" body) body1 edits 0 hupd] at h
    simp only at h
    rw [insertNewParas_nil body1] at h
    simp only [pure, Except.pure] at h
    injection h with h
    subst h
    have hsect1 : countL "w:sectPr" body1 = 0 :=
      applyEditsE_zero pm (countL "w:p" body) "w:sectPr" (by decide) (by decide) (by decide)
        edits body body1 happ hsect
    obtain ⟨hlen2, hget2⟩ := ensureDocumentStructure_frame body1 hsect1
    refine ⟨?_, ?_⟩
    · rw [hlen2, applyEditsE_length pm (countL "w:p" body) edits body body1 happ]
    · intro i x hi hz
      exact hget2 i x
        (applyEditsE_get_zero pm (countL "w:p" body) edits body body1 happ i x hi hz) hz

/-! ## Extraction of the text of freshly created runs -/

theorem collectL_singleton_run (rPr : Option XNode) (line : Str)
    (h : ∀ r, rPr = some r → collectN "w:r" r = []) :
    collectN "w:r" (mkTextRun rPr line) = [mkTextRun rPr line] := by
  cases rPr with
  | none => simp [mkTextRun, collectN, collectL]
  | some r => simp [mkTextRun, collectN, collectL, h r rfl]

theorem collectL_singleton_br (rPr : Option XNode)
    (h : ∀ r, rPr = some r → collectN "w:r" r = []) :
    collectN "w:r" (mkBrRun rPr) = [mkBrRun rPr] := by
  cases rPr with
  | none => simp [mkBrRun, collectN, collectL]
  | some r => simp [mkBrRun, collectN, collectL, h r rfl]

theorem collectR_runsOfLines (rPr : Option XNode) (segs : List Str)
    (h : ∀ r, rPr = some r → collectN "w:r" r = []) :
    collectL "w:r" (runsOfLines rPr segs) = runsOfLines rPr segs := by
  match segs with
  | [] => simp [runsOfLines, collectL]
  | [l] =>
    by_cases hl : l.length > 0 <;>
      simp [runsOfLines, hl, collectL, collectL_singleton_run rPr l h]
  | l :: l2 :: rest =>
    have ih := collectR_runsOfLines rPr (l2 :: rest) h
    by_cases hl : l.length > 0 <;>
      simp [runsOfLines, hl, collectL, collectL_append, collectL_singleton_run rPr l h,
        collectL_singleton_br rPr h, ih]

theorem collectR_createTextRuns (text : Str) (rPr : Option XNode)
    (h : ∀ r, rPr = some r → collectN "w:r" r = []) :
    collectL "w:r" (createTextRuns text rPr) = createTextRuns text rPr := by
  unfold createTextRuns
  by_cases he : (runsOfLines rPr (splitNl text)).isEmpty
  · simp [he, collectL, collectL_singleton_run rPr [] h]
  · simp [he, collectR_runsOfLines rPr (splitNl text) h]

theorem paraText_createTextRuns (text : Str) (rPr : Option XNode)
    (hr : ∀ r, rPr = some r → collectN "w:r" r = [])
    (ht : ∀ r, rPr = some r → collectN "w:t" r = []) :
    paraText (XNode.elem "w:p" [] (createTextRuns text rPr)) =
      text.filter (fun c => !(c == '\n')) := by
  unfold paraText
  rw [childrenOf_elem, collectR_createTextRuns text rPr hr]
  exact runsText_createTextRuns text rPr ht

/-! ## Symbolic evaluation of rebuild on a one-paragraph document -/

def c3Body : List XNode :=
  [XNode.elem "w:p" []
    [XNode.elem "w:r" [] [XNode.elem "w:t" [("xml:space", "preserve")] [XNode.txt ['x']]]]]

def c3Pm : List (String × Nat) := [("p0", 0)]

def c3Edit (t : Str) : Edit := ⟨some "p0", t, none⟩

def c3Out (t : Str) : List XNode := [XNode.elem "w:p" [] (createTextRuns t none)]

theorem ensure_single_plain_para (runs : List XNode)
    (hsect : countL "w:sectPr" runs = 0) (hp : countL "w:p" runs = 0)
    (hpPr : countL "w:pPr" runs = 0) :
    ensureDocumentStructure [XNode.elem "w:p" [] runs] = [XNode.elem "w:p" [] runs] := by
  unfold ensureDocumentStructure
  have hz : countL "w:sectPr" [XNode.elem "w:p" [] runs] = 0 := by
    simp [countL, countN, hsect]
  have hnone := remFirstL_none_of_zero "w:sectPr" _ hz
  rcases hrf : remFirstL "w:sectPr" [XNode.elem "w:p" [] runs] with ⟨l2, r⟩
  rw [hrf] at hnone
  simp only at hnone
  subst hnone
  simp only
  have hcount : countL "w:p" [XNode.elem "w:p" [] runs] = 1 := by
    simp [countL, countN, hp]
  rw [hcount]
  have hrange : List.range 1 = [0] := by decide
  rw [hrange]
  simp only [List.foldl_cons, List.foldl_nil]
  have hens : ensureParaSpacing (XNode.elem "w:p" [] runs) = XNode.elem "w:p" [] runs := by
    simp only [ensureParaSpacing]
    rw [collectL_nil_of_count_zero "w:pPr" runs hpPr]
    simp only [List.head?_nil]
  simp [updateParaAt, updL, updN, hens]

theorem c3_rebuild_eval (t : Str) : rebuild c3Body [c3Edit t] c3Pm = Except.ok (c3Out t) := by
  have hn : countL "w:p" c3Body = 1 := by decide
  have happ : applyEditsE c3Pm 1 [c3Edit t] c3Body = .ok (c3Out t) := by
    simp only [applyEditsE, c3Edit, c3Pm, List.lookup]
    norm_num
    simp only [updateParaAt, c3Body, updL, updN, replaceParaRuns]
    simp [collectL, collectN, childrenOf, removeAllTagL, remAllN, c3Out]
  have hrPr0 : ∀ r, (none : Option XNode) = some r → countN "w:p" r = 0 := by
    intro r hr; simp at hr
  simp only [rebuild, hn, bind, Except.bind, happ]
  rw [collectInsertsAux_no_inserts [c3Edit t] c3Pm 1 (c3Out t) [c3Edit t] 0
    (by intro e he; simp at he; simp [he, c3Edit])]
  simp only
  rw [insertNewParas_nil]
  simp only [pure, Except.pure]
  have hse : countL "w:sectPr" (createTextRuns t none) = 0 :=
    countL_createTextRuns _ t none (by decide) (by decide) (by decide)
      (by intro r hr; simp at hr)
  have hpe : countL "w:p" (createTextRuns t none) = 0 :=
    countL_createTextRuns _ t none (by decide) (by decide) (by decide)
      (by intro r hr; simp at hr)
  have hppe : countL "w:pPr" (createTextRuns t none) = 0 :=
    countL_createTextRuns _ t none (by decide) (by decide) (by decide)
      (by intro r hr; simp at hr)
  rw [show c3Out t = [XNode.elem "w:p" [] (createTextRuns t none)] from rfl,
    ensure_single_plain_para (createTextRuns t none) hse hpe hppe]

/-! ## Lemmas about the parse result -/

theorem length_mapIdxFrom {α β : Type} (f : Nat → α → β) :
    ∀ (i : Nat) (l : List α), (mapIdxFrom f i l).length = l.length := by
  intro i l
  induction l generalizing i with
  | nil => rfl
  | cons x xs ih => simp [mapIdxFrom, ih]

theorem getElem?_mapIdxFrom {α β : Type} (f : Nat → α → β) :
    ∀ (l : List α) (i k : Nat), (mapIdxFrom f i l)[k]? = (l[k]?).map (f (i + k)) := by
  intro l
  induction l with
  | nil => intro i k; simp [mapIdxFrom]
  | cons x xs ih =>
    intro i k
    cases k with
    | zero => simp [mapIdxFrom]
    | succ k =>
      simp only [mapIdxFrom, List.getElem?_cons_succ, ih (i + 1) k]
      have : i + 1 + k = i + (k + 1) := by omega
      rw [this]

theorem lookup_mapIdxFrom_pairs {α β : Type} (g : Nat → String) (h : Nat → β) (l : List α) :
    ∀ (off k : Nat), k < l.length →
      (∀ i j, i < off + l.length → j < off + l.length → g i = g j → i = j) →
      (mapIdxFrom (fun i _ => (g i, h i)) off l).lookup (g (off + k)) = some (h (off + k)) := by
  induction l with
  | nil => intro off k hk _; simp at hk
  | cons x xs ih =>
    intro off k hk hinj
    cases k with
    | zero =>
      simp [mapIdxFrom, List.lookup]
    | succ k =>
      have hne : ¬ (g (off + (k + 1)) == g off) = true := by
        simp only [beq_iff_eq]
        intro heq
        have := hinj (off + (k + 1)) off (by simp at hk ⊢; omega) (by simp) heq
        omega
      simp only [mapIdxFrom, List.lookup, hne]
      have hlen : k < xs.length := by simp at hk; omega
      have hinj2 : ∀ i j, i < (off + 1) + xs.length → j < (off + 1) + xs.length →
          g i = g j → i = j := by
        intro i j hi hj heq
        exact hinj i j (by simp; omega) (by simp; omega) heq
      have := ih (off + 1) k hlen hinj2
      have harith : off + 1 + k = off + (k + 1) := by omega
      rw [harith] at this
      exact this

/-! ## Session-store lemmas -/

theorem lookup_setK_self {α : Type} (k : String) (v : α) (l : List (String × α)) :
    (setK k v l).lookup k = some v := by
  induction l with
  | nil => simp [setK, List.lookup]
  | cons kv rest ih =>
    obtain ⟨k2, w⟩ := kv
    by_cases h : k2 = k
    · simp [setK, h, List.lookup]
    · have h2 : (k == k2) = false := by
        simp only [beq_eq_false_iff_ne, ne_eq]
        intro hc
        exact h hc.symm
      simp [setK, h, List.lookup, h2, ih]

theorem lookup_delK {α : Type} (k : String) (l : List (String × α)) (k2 : String) :
    (delK k l).lookup k2 = if k2 = k then none else l.lookup k2 := by
  induction l with
  | nil => simp [delK, List.lookup]
  | cons kv rest ih =>
    obtain ⟨k3, w⟩ := kv
    by_cases hf : k3 = k
    · subst hf
      rw [show delK k3 ((k3, w) :: rest) = delK k3 rest from by
        simp [delK, List.filter_cons]]
      rw [ih]
      by_cases h2 : k2 = k3
      · simp [h2]
      · have h5 : (k2 == k3) = false := by simp [h2]
        simp [List.lookup, h5, h2]
    · have h4 : (k3 == k) = false := by simp [hf]
      rw [show delK k ((k3, w) :: rest) = (k3, w) :: delK k rest from by
        simp [delK, List.filter_cons, h4]]
      by_cases h2 : k2 = k3
      · subst h2
        have hk2 : ¬ (k2 = k) := fun hc => hf (hc ▸ rfl)
        simp [List.lookup, hk2]
      · have h5 : (k2 == k3) = false := by simp [h2]
        simp only [List.lookup, h5]
        rw [ih]

/-- Whether some timestamp entry of `es` expires key `k` at time `now`. -/
def expiresIn (es : List (String × Int)) (now : Int) (k : String) : Prop :=
  ∃ kv ∈ es, kv.1 = k ∧ kv.2 < now - sessionTtlMs

instance (es : List (String × Int)) (now : Int) (k : String) :
    Decidable (expiresIn es now k) :=
  List.decidableBEx _ es

theorem sweepFold_lookup (now : Int) (es : List (String × Int)) :
    ∀ (st : Sessions) (k : String),
      (expiresIn es now k →
        ((es.foldl
          (fun acc kv => if kv.2 < now - sessionTtlMs then evictSession kv.1 acc else acc)
          st).fileBufferStore.lookup k = none ∧
        (es.foldl
          (fun acc kv => if kv.2 < now - sessionTtlMs then evictSession kv.1 acc else acc)
          st).paragraphMappings.lookup k = none ∧
        (es.foldl
          (fun acc kv => if kv.2 < now - sessionTtlMs then evictSession kv.1 acc else acc)
          st).paragraphStyles.lookup k = none ∧
        (es.foldl
          (fun acc kv => if kv.2 < now - sessionTtlMs then evictSession kv.1 acc else acc)
          st).documentTimestamps.lookup k = none)) ∧
      (¬ expiresIn es now k →
        ((es.foldl
          (fun acc kv => if kv.2 < now - sessionTtlMs then evictSession kv.1 acc else acc)
          st).fileBufferStore.lookup k = st.fileBufferStore.lookup k ∧
        (es.foldl
          (fun acc kv => if kv.2 < now - sessionTtlMs then evictSession kv.1 acc else acc)
          st).paragraphMappings.lookup k = st.paragraphMappings.lookup k ∧
        (es.foldl
          (fun acc kv => if kv.2 < now - sessionTtlMs then evictSession kv.1 acc else acc)
          st).paragraphStyles.lookup k = st.paragraphStyles.lookup k ∧
        (es.foldl
          (fun acc kv => if kv.2 < now - sessionTtlMs then evictSession kv.1 acc else acc)
          st).documentTimestamps.lookup k = st.documentTimestamps.lookup k)) := by
  induction es with
  | nil =>
    intro st k
    constructor
    · rintro ⟨kv, hmem, _⟩
      simp at hmem
    · intro _
      exact ⟨rfl, rfl, rfl, rfl⟩
  | cons kv rest ih =>
    intro st k
    obtain ⟨kid, kts⟩ := kv
    by_cases hexp : kts < now - sessionTtlMs
    · simp only [List.foldl_cons, if_pos hexp]
      constructor
      · intro hin
        by_cases hk : expiresIn rest now k
        · exact (ih (evictSession kid st) k).1 hk
        · have hkid : kid = k := by
            obtain ⟨kv2, hmem, hp⟩ := hin
            rcases List.mem_cons.1 hmem with hmem | hmem
            · rw [hmem] at hp
              exact hp.1
            · exact absurd ⟨kv2, hmem, hp⟩ hk
          obtain ⟨e1, e2, e3, e44⟩ := (ih (evictSession kid st) k).2 hk
          subst hkid
          refine ⟨?_, ?_, ?_, ?_⟩
          · rw [e1, show (evictSession kid st).fileBufferStore =
              delK kid st.fileBufferStore from rfl, lookup_delK, if_pos rfl]
          · rw [e2, show (evictSession kid st).paragraphMappings =
              delK kid st.paragraphMappings from rfl, lookup_delK, if_pos rfl]
          · rw [e3, show (evictSession kid st).paragraphStyles =
              delK kid st.paragraphStyles from rfl, lookup_delK, if_pos rfl]
          · rw [e44, show (evictSession kid st).documentTimestamps =
              delK kid st.documentTimestamps from rfl, lookup_delK, if_pos rfl]
      · intro hnin
        have hkn : ¬ (kid = k) := by
          intro hc
          exact hnin ⟨(kid, kts), List.mem_cons_self _ _, hc, hexp⟩
        have hrest : ¬ expiresIn rest now k := by
          intro hc
          obtain ⟨kv2, hmem, hp⟩ := hc
          exact hnin ⟨kv2, List.mem_cons_of_mem _ hmem, hp⟩
        obtain ⟨e1, e2, e3, e44⟩ := (ih (evictSession kid st) k).2 hrest
        have hne : ¬ (k = kid) := fun hc => hkn hc.symm
        refine ⟨?_, ?_, ?_, ?_⟩
        · rw [e1, show (evictSession kid st).fileBufferStore =
            delK kid st.fileBufferStore from rfl, lookup_delK, if_neg hne]
        · rw [e2, show (evictSession kid st).paragraphMappings =
            delK kid st.paragraphMappings from rfl, lookup_delK, if_neg hne]
        · rw [e3, show (evictSession kid st).paragraphStyles =
            delK kid st.paragraphStyles from rfl, lookup_delK, if_neg hne]
        · rw [e44, show (evictSession kid st).documentTimestamps =
            delK kid st.documentTimestamps from rfl, lookup_delK, if_neg hne]
    · simp only [List.foldl_cons, if_neg hexp]
      constructor
      · intro hin
        have hrest : expiresIn rest now k := by
          obtain ⟨kv2, hmem, hp⟩ := hin
          rcases List.mem_cons.1 hmem with hmem | hmem
          · rw [hmem] at hp
            exact absurd hp.2 hexp
          · exact ⟨kv2, hmem, hp⟩
        exact (ih st k).1 hrest
      · intro hnin
        have hrest : ¬ expiresIn rest now k := by
          intro hc
          obtain ⟨kv2, hmem, hp⟩ := hc
          exact hnin ⟨kv2, List.mem_cons_of_mem _ hmem, hp⟩
        exact (ih st k).2 hrest

/-! ## Shape of freshly created runs, and conditional identity of the spacing fix -/

theorem mem_runsOfLines (rPr : Option XNode) (segs : List Str) :
    ∀ x ∈ runsOfLines rPr segs, (∃ l, x = mkTextRun rPr l) ∨ x = mkBrRun rPr := by
  match segs with
  | [] => simp [runsOfLines]
  | [l] =>
    intro x hx
    by_cases hl : l.length > 0
    · simp only [runsOfLines, if_pos hl, List.mem_singleton] at hx
      exact Or.inl ⟨l, hx⟩
    · simp only [runsOfLines, if_neg hl] at hx
      simp at hx
  | l :: l2 :: rest =>
    have ih := mem_runsOfLines rPr (l2 :: rest)
    intro x hx
    by_cases hl : l.length > 0
    · simp only [runsOfLines, if_pos hl, List.singleton_append, List.mem_cons] at hx
      rcases hx with hx | hx | hx
      · exact Or.inl ⟨l, hx⟩
      · exact Or.inr hx
      · exact ih x hx
    · simp only [runsOfLines, if_neg hl, List.nil_append, List.mem_cons] at hx
      rcases hx with hx | hx
      · exact Or.inr hx
      · exact ih x hx

theorem createTextRuns_ne_nil (text : Str) (rPr : Option XNode) :
    createTextRuns text rPr ≠ [] := by
  unfold createTextRuns
  by_cases he : (runsOfLines rPr (splitNl text)).isEmpty = true
  · rw [if_pos he]
    simp
  · rw [if_neg he]
    intro hc
    exact he (by rw [hc]; rfl)

theorem mem_createTextRuns (text : Str) (rPr : Option XNode) :
    ∀ x ∈ createTextRuns text rPr, (∃ l, x = mkTextRun rPr l) ∨ x = mkBrRun rPr := by
  unfold createTextRuns
  by_cases he : (runsOfLines rPr (splitNl text)).isEmpty = true
  · rw [if_pos he]
    intro x hx
    simp at hx
    exact Or.inl ⟨[], hx⟩
  · rw [if_neg he]
    exact mem_runsOfLines rPr (splitNl text)

theorem head_createTextRuns_rPr (text : Str) (rPr0 : XNode)
    (htag : hasTag "w:rPr" rPr0 = true) :
    ∀ r0, (createTextRuns text (some rPr0)).head? = some r0 →
      (collectL "w:rPr" (childrenOf r0)).head? = some rPr0 := by
  intro r0 h0
  have hmem : r0 ∈ createTextRuns text (some rPr0) := List.mem_of_mem_head? h0
  have hshape := mem_createTextRuns text (some rPr0) r0 hmem
  cases rPr0 with
  | txt s => simp [hasTag] at htag
  | elem tg ra rch =>
    simp only [hasTag, beq_iff_eq] at htag
    subst htag
    have hcoll : ∀ (tail : List XNode),
        (collectL "w:rPr" (XNode.elem "w:rPr" ra rch :: tail)).head? =
          some (XNode.elem "w:rPr" ra rch) := by
      intro tail
      simp [collectL, collectN]
    rcases hshape with ⟨l, hl⟩ | hbr
    · subst hl
      simp only [mkTextRun, childrenOf_elem, List.singleton_append]
      exact hcoll _
    · subst hbr
      simp only [mkBrRun, childrenOf_elem, List.singleton_append]
      exact hcoll _

/-- Attributes of a node (empty for text nodes). -/
def attrsOf : XNode → List (String × String)
  | .elem _ a _ => a
  | .txt _ => []

theorem updL_id_of_mem (t : String) (f : XNode → XNode) (l : List XNode)
    (hf : ∀ x ∈ collectL t l, f x = x) : ∀ c, (updL t f c l).1 = l := by
  induction l using xlist_ind with
  | hnil => intro c; rfl
  | htxt s xs ih =>
    intro c
    have hf2 : ∀ x ∈ collectL t xs, f x = x := by
      intro x hx
      exact hf x (by simpa [collectL, collectN] using hx)
    cases c with
    | none => simp [updL_none]
    | some n => simp [updL, updN, ih hf2]
  | helem tg a ch xs ih1 ih2 =>
    intro c
    have hfch : ∀ x ∈ collectL t ch, f x = x := by
      intro x hx
      refine hf x ?_
      simp only [collectL, collectN, List.mem_append]
      left; right; exact hx
    have hfxs : ∀ x ∈ collectL t xs, f x = x := by
      intro x hx
      refine hf x ?_
      simp only [collectL, collectN, List.mem_append]
      right; exact hx
    cases c with
    | none => simp [updL_none]
    | some n =>
      by_cases h : tg = t
      · by_cases hn : n = 0
        · subst h
          have hmem : XNode.elem tg a ch ∈ collectL tg (XNode.elem tg a ch :: xs) := by
            simp [collectL, collectN]
          simp [updL, updN, hn, updL_none, hf _ hmem]
        · simp [updL, updN, h, hn, ih1 hfch, ih2 hfxs]
      · simp [updL, updN, h, ih1 hfch, ih2 hfxs]

theorem fillSpacingAttrs_id (sp : XNode)
    (h1 : attrFalsy (getAttr "w:after" (attrsOf sp)) = false)
    (h2 : attrFalsy (getAttr "w:line" (attrsOf sp)) = false) :
    fillSpacingAttrs sp = sp := by
  cases sp with
  | txt s => rfl
  | elem tg a ch =>
    simp only [attrsOf] at h1 h2
    simp [fillSpacingAttrs, h1, h2]

theorem fixPPr_id (pPr : XNode)
    (hsome : ((collectL "w:spacing" (childrenOf pPr)).head?).isSome = true)
    (hall : ∀ sp ∈ collectL "w:spacing" (childrenOf pPr),
      attrFalsy (getAttr "w:after" (attrsOf sp)) = false ∧
        attrFalsy (getAttr "w:line" (attrsOf sp)) = false) :
    fixPPr pPr = pPr := by
  cases pPr with
  | txt s => rfl
  | elem tg a ch =>
    simp only [childrenOf_elem] at hsome hall
    cases hsp : (collectL "w:spacing" ch).head? with
    | none => rw [hsp] at hsome; simp at hsome
    | some sp =>
      simp only [fixPPr, hsp]
      rw [show updFirstTag "w:spacing" fillSpacingAttrs ch =
        (updL "w:spacing" fillSpacingAttrs (some 0) ch).1 from rfl]
      rw [updL_id_of_mem "w:spacing" fillSpacingAttrs ch
        (fun x hx => fillSpacingAttrs_id x (hall x hx).1 (hall x hx).2)]

/-! ## Symbolic evaluation of rebuild for an insert with style inheritance -/

def c5T0 : XNode := .elem "w:t" [("xml:space", "preserve")] [.txt ['x']]

def c5R (ra : List (String × String)) (rch : List XNode) : XNode :=
  .elem "w:r" [] [XNode.elem "w:rPr" ra rch, c5T0]

def c5P0 (pa : List (String × String)) (pch : List XNode)
    (ra : List (String × String)) (rch : List XNode) : XNode :=
  .elem "w:p" [] [XNode.elem "w:pPr" pa pch, c5R ra rch]

def c5Body (pa : List (String × String)) (pch : List XNode)
    (ra : List (String × String)) (rch : List XNode) : List XNode :=
  [c5P0 pa pch ra rch]

def c5Pm : List (String × Nat) := [("p0", 0)]

/-- The p0 paragraph after the in-place update pass. -/
def c5P0B (pa : List (String × String)) (pch : List XNode)
    (ra : List (String × String)) (rch : List XNode) (tA : Str) : XNode :=
  .elem "w:p" []
    (XNode.elem "w:pPr" pa pch :: createTextRuns tA (some (XNode.elem "w:rPr" ra rch)))

theorem c5_collect_r (pa : List (String × String)) (pch : List XNode)
    (ra : List (String × String)) (rch : List XNode)
    (hr1 : countL "w:r" pch = 0) (hr2 : countL "w:r" rch = 0) :
    collectL "w:r" [XNode.elem "w:pPr" pa pch, c5R ra rch] = [c5R ra rch] := by
  simp only [collectL, collectN, c5R, c5T0]
  rw [collectL_nil_of_count_zero "w:r" pch hr1, collectL_nil_of_count_zero "w:r" rch hr2]
  simp [collectL, collectN]

theorem c5_replace (pa : List (String × String)) (pch : List XNode)
    (ra : List (String × String)) (rch : List XNode) (tA : Str)
    (hr1 : countL "w:r" pch = 0) (hr2 : countL "w:r" rch = 0) :
    replaceParaRuns tA (c5P0 pa pch ra rch) = c5P0B pa pch ra rch tA := by
  simp only [c5P0, replaceParaRuns, c5_collect_r pa pch ra rch hr1 hr2]
  simp only [List.head?_cons]
  have hrPr : (collectL "w:rPr" (childrenOf (c5R ra rch))).head? =
      some (XNode.elem "w:rPr" ra rch) := by
    simp [c5R, childrenOf_elem, collectL, collectN, c5T0]
  rw [hrPr]
  have hrem : removeAllTagL "w:r" [XNode.elem "w:pPr" pa pch, c5R ra rch] =
      [XNode.elem "w:pPr" pa pch] := by
    simp only [removeAllTagL, remAllN, c5R]
    rw [removeAllTagL_of_count_zero "w:r" pch hr1]
    simp
  rw [hrem]
  simp [c5P0B, normalizeRunProperties_id]

theorem c5_pass1 (pa : List (String × String)) (pch : List XNode)
    (ra : List (String × String)) (rch : List XNode) (tA : Str) (e2 : Edit)
    (he2 : e2.id = none)
    (hr1 : countL "w:r" pch = 0) (hr2 : countL "w:r" rch = 0) :
    applyEditsE c5Pm 1 [⟨some "p0", tA, none⟩, e2] (c5Body pa pch ra rch) =
      .ok [c5P0B pa pch ra rch tA] := by
  have hstep : updL "w:p" (replaceParaRuns tA) (some 0) [c5P0 pa pch ra rch] =
      ([replaceParaRuns tA (c5P0 pa pch ra rch)], none) := by
    simp [updL, updN, c5P0]
  have step1 : applyEditsE c5Pm 1 [⟨some "p0", tA, none⟩, e2] (c5Body pa pch ra rch) =
      applyEditsE c5Pm 1 [e2]
        (updateParaAt 0 (replaceParaRuns tA) (c5Body pa pch ra rch)) := by
    simp [applyEditsE, c5Pm, List.lookup]
  rw [step1]
  have hupd : updateParaAt 0 (replaceParaRuns tA) (c5Body pa pch ra rch) =
      [c5P0B pa pch ra rch tA] := by
    simp only [updateParaAt, c5Body, hstep]
    rw [c5_replace pa pch ra rch tA hr1 hr2]
  rw [hupd]
  simp [applyEditsE, he2]

def c5NewP (pa : List (String × String)) (pch : List XNode)
    (ra : List (String × String)) (rch : List XNode) (tB : Str) : XNode :=
  .elem "w:p" []
    (XNode.elem "w:pPr" pa pch :: createTextRuns tB (some (XNode.elem "w:rPr" ra rch)))

theorem c5_collectP_body1 (pa : List (String × String)) (pch : List XNode)
    (ra : List (String × String)) (rch : List XNode) (tA : Str)
    (hp1 : countL "w:p" pch = 0) (hp2 : countL "w:p" rch = 0) :
    collectL "w:p" [c5P0B pa pch ra rch tA] = [c5P0B pa pch ra rch tA] := by
  have hruns : countL "w:p" (createTextRuns tA (some (XNode.elem "w:rPr" ra rch))) = 0 := by
    refine countL_createTextRuns "w:p" tA _ (by decide) (by decide) (by decide) ?_
    intro r hr
    injection hr with hr
    subst hr
    simp [countN, hp2]
  have hz : countL "w:p"
      (XNode.elem "w:pPr" pa pch :: createTextRuns tA (some (XNode.elem "w:rPr" ra rch))) = 0 := by
    simp [countL, countN, hp1, hruns]
  simp only [c5P0B, collectL, collectN]
  rw [collectL_nil_of_count_zero "w:p" pch hp1, collectL_nil_of_count_zero "w:p" _ hruns]
  simp

theorem c5_build (pa : List (String × String)) (pch : List XNode)
    (ra : List (String × String)) (rch : List XNode) (tA tB : Str)
    (hr1 : countL "w:r" pch = 0) (hr2 : countL "w:r" rch = 0)
    (hp1 : countL "w:p" pch = 0) (hp2 : countL "w:p" rch = 0) :
    buildNewPara c5Pm 1 [c5P0B pa pch ra rch tA] ⟨none, tB, some "p0"⟩ =
      .ok (c5NewP pa pch ra rch tB) := by
  have hget : (collectL "w:p" [c5P0B pa pch ra rch tA]).get? 0 =
      some (c5P0B pa pch ra rch tA) := by
    rw [c5_collectP_body1 pa pch ra rch tA hp1 hp2]
    rfl
  have hpp : (collectL "w:pPr" (childrenOf (c5P0B pa pch ra rch tA))).head? =
      some (XNode.elem "w:pPr" pa pch) := by
    simp [c5P0B, childrenOf_elem, collectL, collectN]
  have hcr : collectL "w:r" (childrenOf (c5P0B pa pch ra rch tA)) =
      createTextRuns tA (some (XNode.elem "w:rPr" ra rch)) := by
    simp only [c5P0B, childrenOf_elem, collectL, collectN]
    rw [collectL_nil_of_count_zero "w:r" pch hr1]
    rw [collectR_createTextRuns tA _ ?_]
    · simp
    · intro r hr
      injection hr with hr
      subst hr
      simp only [collectN]
      rw [collectL_nil_of_count_zero "w:r" rch hr2]
      simp
  cases hhead : (createTextRuns tA (some (XNode.elem "w:rPr" ra rch))).head? with
  | none =>
    exfalso
    exact createTextRuns_ne_nil tA _ (List.head?_eq_none_iff.1 hhead)
  | some r0 =>
    have hrPr := head_createTextRuns_rPr tA (XNode.elem "w:rPr" ra rch) (by simp [hasTag]) r0 hhead
    have hif : ¬ (("p0" : String) = "") := by decide
    have hlk : List.lookup "p0" c5Pm = some 0 := rfl
    simp only [buildNewPara]
    rw [if_neg hif]
    simp only [hlk]
    rw [if_pos (by norm_num : (0 : Nat) < 1)]
    rw [hget]
    simp only [hpp, hcr, hhead, hrPr]
    simp [c5NewP, normalizeParagraphProperties_id, normalizeRunProperties_id]

theorem c5_collect_inserts (pa : List (String × String)) (pch : List XNode)
    (ra : List (String × String)) (rch : List XNode) (tA tB : Str)
    (hr1 : countL "w:r" pch = 0) (hr2 : countL "w:r" rch = 0)
    (hp1 : countL "w:p" pch = 0) (hp2 : countL "w:p" rch = 0) :
    collectInsertsAux [⟨some "p0", tA, none⟩, ⟨none, tB, some "p0"⟩] c5Pm 1
        [c5P0B pa pch ra rch tA] 0 [⟨some "p0", tA, none⟩, ⟨none, tB, some "p0"⟩] =
      .ok [(c5NewP pa pch ra rch tB, some 0)] := by
  have hanch : anchorOf [⟨some "p0", tA, none⟩, ⟨none, tB, some "p0"⟩] c5Pm 1 = some 0 := by
    simp [anchorOf, anchorScan, c5Pm, List.lookup]
  simp only [collectInsertsAux]
  rw [c5_build pa pch ra rch tA tB hr1 hr2 hp1 hp2]
  simp [hanch, bind, Except.bind, pure, Except.pure, collectInsertsAux]

theorem c5_insert (pa : List (String × String)) (pch : List XNode)
    (ra : List (String × String)) (rch : List XNode) (tA tB : Str) :
    insertNewParas [(c5NewP pa pch ra rch tB, some 0)] [c5P0B pa pch ra rch tA] =
      .ok [c5P0B pa pch ra rch tA, c5NewP pa pch ra rch tB] := by
  have htag : hasTag "w:p" (c5P0B pa pch ra rch tA) = true := by
    simp [c5P0B, hasTag]
  simp [insertNewParas, insertAfterOrig, htag, bind, Except.bind, pure, Except.pure]

theorem ensureParaSpacing_withPPr (pa : List (String × String)) (pch : List XNode)
    (runs : List XNode) :
    ensureParaSpacing (XNode.elem "w:p" [] (XNode.elem "w:pPr" pa pch :: runs)) =
      XNode.elem "w:p" [] (fixPPr (XNode.elem "w:pPr" pa pch) :: runs) := by
  have hupd : updL "w:pPr" fixPPr (some 0) (XNode.elem "w:pPr" pa pch :: runs) =
      (fixPPr (XNode.elem "w:pPr" pa pch) :: runs, none) := by
    simp [updL, updN, updL_none]
  have hhead : (collectL "w:pPr" (XNode.elem "w:pPr" pa pch :: runs)).head? =
      some (XNode.elem "w:pPr" pa pch) := by
    simp [collectL, collectN]
  simp only [ensureParaSpacing, hhead]
  simp only [updFirstTag, hupd]

theorem ensure_two_paras (pa : List (String × String)) (pch runsA runsB : List XNode)
    (hsect1 : countL "w:sectPr" pch = 0) (hsectA : countL "w:sectPr" runsA = 0)
    (hsectB : countL "w:sectPr" runsB = 0)
    (hp1 : countL "w:p" pch = 0) (hpA : countL "w:p" runsA = 0) (hpB : countL "w:p" runsB = 0) :
    ensureDocumentStructure
        [XNode.elem "w:p" [] (XNode.elem "w:pPr" pa pch :: runsA),
         XNode.elem "w:p" [] (XNode.elem "w:pPr" pa pch :: runsB)] =
      [XNode.elem "w:p" [] (fixPPr (XNode.elem "w:pPr" pa pch) :: runsA),
       XNode.elem "w:p" [] (fixPPr (XNode.elem "w:pPr" pa pch) :: runsB)] := by
  have hsect : countL "w:sectPr"
      [XNode.elem "w:p" [] (XNode.elem "w:pPr" pa pch :: runsA),
       XNode.elem "w:p" [] (XNode.elem "w:pPr" pa pch :: runsB)] = 0 := by
    simp [countL, countN, hsect1, hsectA, hsectB]
  have hcnt : countL "w:p"
      [XNode.elem "w:p" [] (XNode.elem "w:pPr" pa pch :: runsA),
       XNode.elem "w:p" [] (XNode.elem "w:pPr" pa pch :: runsB)] = 2 := by
    simp [countL, countN, hp1, hpA, hpB]
  unfold ensureDocumentStructure
  have hnone := remFirstL_none_of_zero "w:sectPr" _ hsect
  rcases hrf : remFirstL "w:sectPr"
      [XNode.elem "w:p" [] (XNode.elem "w:pPr" pa pch :: runsA),
       XNode.elem "w:p" [] (XNode.elem "w:pPr" pa pch :: runsB)] with ⟨l2, r⟩
  rw [hrf] at hnone
  simp only at hnone
  subst hnone
  simp only
  rw [hcnt]
  rw [show List.range 2 = [0, 1] from rfl]
  simp only [List.foldl_cons, List.foldl_nil]
  have hchildzero : countL "w:p" (fixPPr (XNode.elem "w:pPr" pa pch) :: runsA) = 0 := by
    simp only [countL]
    rw [countN_fixPPr "w:p" (by decide) _]
    simp [countN, hp1, hpA]
  have hstep0 : updateParaAt 0 ensureParaSpacing
      [XNode.elem "w:p" [] (XNode.elem "w:pPr" pa pch :: runsA),
       XNode.elem "w:p" [] (XNode.elem "w:pPr" pa pch :: runsB)] =
      [XNode.elem "w:p" [] (fixPPr (XNode.elem "w:pPr" pa pch) :: runsA),
       XNode.elem "w:p" [] (XNode.elem "w:pPr" pa pch :: runsB)] := by
    simp [updateParaAt, updL, updN, updL_none, ensureParaSpacing_withPPr]
  rw [hstep0]
  have hstep1 : updateParaAt 1 ensureParaSpacing
      [XNode.elem "w:p" [] (fixPPr (XNode.elem "w:pPr" pa pch) :: runsA),
       XNode.elem "w:p" [] (XNode.elem "w:pPr" pa pch :: runsB)] =
      [XNode.elem "w:p" [] (fixPPr (XNode.elem "w:pPr" pa pch) :: runsA),
       XNode.elem "w:p" [] (fixPPr (XNode.elem "w:pPr" pa pch) :: runsB)] := by
    have h1 : updN "w:p" ensureParaSpacing (some 1)
        (XNode.elem "w:p" [] (fixPPr (XNode.elem "w:pPr" pa pch) :: runsA)) =
        (XNode.elem "w:p" [] (fixPPr (XNode.elem "w:pPr" pa pch) :: runsA), some 0) := by
      simp only [updN]
      rw [if_pos trivial, if_neg (by norm_num : ¬ ((1 : Nat) = 0))]
      rw [updL_zero "w:p" ensureParaSpacing _ hchildzero (some (1 - 1))]
    have h2 : updN "w:p" ensureParaSpacing (some 0)
        (XNode.elem "w:p" [] (XNode.elem "w:pPr" pa pch :: runsB)) =
        (XNode.elem "w:p" [] (fixPPr (XNode.elem "w:pPr" pa pch) :: runsB), none) := by
      simp only [updN]
      rw [if_pos trivial, if_pos trivial]
      rw [ensureParaSpacing_withPPr]
    simp only [updateParaAt, updL, h1, h2, updL_none]
  rw [hstep1]

/-- Full evaluation of rebuild on the C5 scenario: one original styled
paragraph `p0` and one insert edit inheriting its style.  The inserted
paragraph gets `p0`'s paragraph properties (as post-processed by the spacing
defaults of `ensureDocumentStructure`) and its first run's run properties. -/
theorem c5_rebuild_eval (pa : List (String × String)) (pch : List XNode)
    (ra : List (String × String)) (rch : List XNode) (tA tB : Str)
    (hr1 : countL "w:r" pch = 0) (hr2 : countL "w:r" rch = 0)
    (hp1 : countL "w:p" pch = 0) (hp2 : countL "w:p" rch = 0)
    (hs1 : countL "w:sectPr" pch = 0) (hs2 : countL "w:sectPr" rch = 0) :
    rebuild (c5Body pa pch ra rch) [⟨some "p0", tA, none⟩, ⟨none, tB, some "p0"⟩] c5Pm =
      .ok [XNode.elem "w:p" []
             (fixPPr (XNode.elem "w:pPr" pa pch) ::
               createTextRuns tA (some (XNode.elem "w:rPr" ra rch))),
           XNode.elem "w:p" []
             (fixPPr (XNode.elem "w:pPr" pa pch) ::
               createTextRuns tB (some (XNode.elem "w:rPr" ra rch)))] := by
  have hn : countL "w:p" (c5Body pa pch ra rch) = 1 := by
    simp [c5Body, c5P0, c5R, c5T0, countL, countN, hp1, hp2]
  have h1 := c5_pass1 pa pch ra rch tA ⟨none, tB, some "p0"⟩ rfl hr1 hr2
  have h2 := c5_collect_inserts pa pch ra rch tA tB hr1 hr2 hp1 hp2
  have h3 := c5_insert pa pch ra rch tA tB
  have hrO : ∀ r, some (XNode.elem "w:rPr" ra rch) = some r → countN "w:sectPr" r = 0 := by
    intro r hr
    injection hr with hr
    subst hr
    simp [countN, hs2]
  have hpO : ∀ r, some (XNode.elem "w:rPr" ra rch) = some r → countN "w:p" r = 0 := by
    intro r hr
    injection hr with hr
    subst hr
    simp [countN, hp2]
  have hsA : countL "w:sectPr" (createTextRuns tA (some (XNode.elem "w:rPr" ra rch))) = 0 :=
    countL_createTextRuns _ tA _ (by decide) (by decide) (by decide) hrO
  have hsB : countL "w:sectPr" (createTextRuns tB (some (XNode.elem "w:rPr" ra rch))) = 0 :=
    countL_createTextRuns _ tB _ (by decide) (by decide) (by decide) hrO
  have hpA : countL "w:p" (createTextRuns tA (some (XNode.elem "w:rPr" ra rch))) = 0 :=
    countL_createTextRuns _ tA _ (by decide) (by decide) (by decide) hpO
  have hpB : countL "w:p" (createTextRuns tB (some (XNode.elem "w:rPr" ra rch))) = 0 :=
    countL_createTextRuns _ tB _ (by decide) (by decide) (by decide) hpO
  have h4 := ensure_two_paras pa pch
    (createTextRuns tA (some (XNode.elem "w:rPr" ra rch)))
    (createTextRuns tB (some (XNode.elem "w:rPr" ra rch)))
    hs1 hsA hsB hp1 hpA hpB
  simp only [rebuild, hn, bind, Except.bind, h1, h2, h3]
  simp only [pure, Except.pure]
  rw [show [c5P0B pa pch ra rch tA, c5NewP pa pch ra rch tB] =
      [XNode.elem "w:p" []
         (XNode.elem "w:pPr" pa pch :: createTextRuns tA (some (XNode.elem "w:rPr" ra rch))),
       XNode.elem "w:p" []
         (XNode.elem "w:pPr" pa pch :: createTextRuns tB (some (XNode.elem "w:rPr" ra rch)))]
    from rfl, h4]

/-- `ensureDocumentStructure` on a body of one paragraph with properties
followed by one plain paragraph: only the first paragraph's properties are
touched. -/
theorem ensure_withPPr_plain (pa : List (String × String)) (pch runsA runsB : List XNode)
    (hsect1 : countL "w:sectPr" pch = 0) (hsectA : countL "w:sectPr" runsA = 0)
    (hsectB : countL "w:sectPr" runsB = 0)
    (hp1 : countL "w:p" pch = 0) (hpA : countL "w:p" runsA = 0) (hpB : countL "w:p" runsB = 0)
    (hpPrB : countL "w:pPr" runsB = 0) :
    ensureDocumentStructure
        [XNode.elem "w:p" [] (XNode.elem "w:pPr" pa pch :: runsA),
         XNode.elem "w:p" [] runsB] =
      [XNode.elem "w:p" [] (fixPPr (XNode.elem "w:pPr" pa pch) :: runsA),
       XNode.elem "w:p" [] runsB] := by
  have hsect : countL "w:sectPr"
      [XNode.elem "w:p" [] (XNode.elem "w:pPr" pa pch :: runsA),
       XNode.elem "w:p" [] runsB] = 0 := by
    simp [countL, countN, hsect1, hsectA, hsectB]
  have hcnt : countL "w:p"
      [XNode.elem "w:p" [] (XNode.elem "w:pPr" pa pch :: runsA),
       XNode.elem "w:p" [] runsB] = 2 := by
    simp [countL, countN, hp1, hpA, hpB]
  unfold ensureDocumentStructure
  have hnone := remFirstL_none_of_zero "w:sectPr" _ hsect
  rcases hrf : remFirstL "w:sectPr"
      [XNode.elem "w:p" [] (XNode.elem "w:pPr" pa pch :: runsA),
       XNode.elem "w:p" [] runsB] with ⟨l2, r⟩
  rw [hrf] at hnone
  simp only at hnone
  subst hnone
  simp only
  rw [hcnt]
  rw [show List.range 2 = [0, 1] from rfl]
  simp only [List.foldl_cons, List.foldl_nil]
  have hchildzero : countL "w:p" (fixPPr (XNode.elem "w:pPr" pa pch) :: runsA) = 0 := by
    simp only [countL]
    rw [countN_fixPPr "w:p" (by decide) _]
    simp [countN, hp1, hpA]
  have hensB : ensureParaSpacing (XNode.elem "w:p" [] runsB) = XNode.elem "w:p" [] runsB := by
    simp only [ensureParaSpacing]
    rw [collectL_nil_of_count_zero "w:pPr" runsB hpPrB]
    simp only [List.head?_nil]
  have hstep0 : updateParaAt 0 ensureParaSpacing
      [XNode.elem "w:p" [] (XNode.elem "w:pPr" pa pch :: runsA),
       XNode.elem "w:p" [] runsB] =
      [XNode.elem "w:p" [] (fixPPr (XNode.elem "w:pPr" pa pch) :: runsA),
       XNode.elem "w:p" [] runsB] := by
    simp [updateParaAt, updL, updN, updL_none, ensureParaSpacing_withPPr]
  rw [hstep0]
  have hstep1 : updateParaAt 1 ensureParaSpacing
      [XNode.elem "w:p" [] (fixPPr (XNode.elem "w:pPr" pa pch) :: runsA),
       XNode.elem "w:p" [] runsB] =
      [XNode.elem "w:p" [] (fixPPr (XNode.elem "w:pPr" pa pch) :: runsA),
       XNode.elem "w:p" [] runsB] := by
    have h1 : updN "w:p" ensureParaSpacing (some 1)
        (XNode.elem "w:p" [] (fixPPr (XNode.elem "w:pPr" pa pch) :: runsA)) =
        (XNode.elem "w:p" [] (fixPPr (XNode.elem "w:pPr" pa pch) :: runsA), some 0) := by
      simp only [updN]
      rw [if_pos trivial, if_neg (by norm_num : ¬ ((1 : Nat) = 0))]
      rw [updL_zero "w:p" ensureParaSpacing _ hchildzero (some (1 - 1))]
    have h2 : updN "w:p" ensureParaSpacing (some 0) (XNode.elem "w:p" [] runsB) =
        (XNode.elem "w:p" [] runsB, none) := by
      simp only [updN]
      rw [if_pos trivial, if_pos trivial]
      rw [hensB]
    simp only [updateParaAt, updL, h1, h2, updL_none]
  rw [hstep1]

/-- A single new paragraph anchored right after a body's only paragraph. -/
theorem insert_after_p0 (x newP : XNode) (htag : hasTag "w:p" x = true) :
    insertNewParas [(newP, some 0)] [x] = .ok [x, newP] := by
  simp [insertNewParas, insertAfterOrig, htag, bind, Except.bind, pure, Except.pure]

theorem c5_collect_inserts_unres (pa : List (String × String)) (pch : List XNode)
    (ra : List (String × String)) (rch : List XNode) (tA tB : Str) :
    collectInsertsAux [⟨some "p0", tA, none⟩, ⟨none, tB, some "zz"⟩] c5Pm 1
        [c5P0B pa pch ra rch tA] 0 [⟨some "p0", tA, none⟩, ⟨none, tB, some "zz"⟩] =
      .ok [(XNode.elem "w:p" [] (createTextRuns tB none), some 0)] := by
  have hanch : anchorOf [⟨some "p0", tA, none⟩, ⟨none, tB, some "zz"⟩] c5Pm 1 = some 0 := by
    simp [anchorOf, anchorScan, c5Pm, List.lookup]
  have hbuild : buildNewPara c5Pm 1 [c5P0B pa pch ra rch tA] ⟨none, tB, some "zz"⟩ =
      .ok (XNode.elem "w:p" [] (createTextRuns tB none)) := by
    simp [buildNewPara, c5Pm, List.lookup]
  simp only [collectInsertsAux]
  rw [hbuild]
  simp [hanch, bind, Except.bind, pure, Except.pure, collectInsertsAux]

/-- Full evaluation of rebuild on the C5 scenario with an inherit id that is
not in the paragraph map: the inserted paragraph carries no paragraph
properties and its runs carry no run properties. -/
theorem c5_rebuild_eval_unres (pa : List (String × String)) (pch : List XNode)
    (ra : List (String × String)) (rch : List XNode) (tA tB : Str)
    (hr1 : countL "w:r" pch = 0) (hr2 : countL "w:r" rch = 0)
    (hp1 : countL "w:p" pch = 0) (hp2 : countL "w:p" rch = 0)
    (hs1 : countL "w:sectPr" pch = 0) (hs2 : countL "w:sectPr" rch = 0) :
    rebuild (c5Body pa pch ra rch) [⟨some "p0", tA, none⟩, ⟨none, tB, some "zz"⟩] c5Pm =
      .ok [XNode.elem "w:p" []
             (fixPPr (XNode.elem "w:pPr" pa pch) ::
               createTextRuns tA (some (XNode.elem "w:rPr" ra rch))),
           XNode.elem "w:p" [] (createTextRuns tB none)] := by
  have hn : countL "w:p" (c5Body pa pch ra rch) = 1 := by
    simp [c5Body, c5P0, c5R, c5T0, countL, countN, hp1, hp2]
  have h1 := c5_pass1 pa pch ra rch tA ⟨none, tB, some "zz"⟩ rfl hr1 hr2
  have h2 := c5_collect_inserts_unres pa pch ra rch tA tB
  have h3 := insert_after_p0 (c5P0B pa pch ra rch tA)
    (XNode.elem "w:p" [] (createTextRuns tB none)) (by simp [c5P0B, hasTag])
  have hrO : ∀ r, some (XNode.elem "w:rPr" ra rch) = some r → countN "w:sectPr" r = 0 := by
    intro r hr
    injection hr with hr
    subst hr
    simp [countN, hs2]
  have hpO : ∀ r, some (XNode.elem "w:rPr" ra rch) = some r → countN "w:p" r = 0 := by
    intro r hr
    injection hr with hr
    subst hr
    simp [countN, hp2]
  have hsA : countL "w:sectPr" (createTextRuns tA (some (XNode.elem "w:rPr" ra rch))) = 0 :=
    countL_createTextRuns _ tA _ (by decide) (by decide) (by decide) hrO
  have hpA : countL "w:p" (createTextRuns tA (some (XNode.elem "w:rPr" ra rch))) = 0 :=
    countL_createTextRuns _ tA _ (by decide) (by decide) (by decide) hpO
  have hsB : countL "w:sectPr" (createTextRuns tB none) = 0 :=
    countL_createTextRuns _ tB none (by decide) (by decide) (by decide)
      (by intro r hr; simp at hr)
  have hpB : countL "w:p" (createTextRuns tB none) = 0 :=
    countL_createTextRuns _ tB none (by decide) (by decide) (by decide)
      (by intro r hr; simp at hr)
  have hppB : countL "w:pPr" (createTextRuns tB none) = 0 :=
    countL_createTextRuns _ tB none (by decide) (by decide) (by decide)
      (by intro r hr; simp at hr)
  have h4 := ensure_withPPr_plain pa pch
    (createTextRuns tA (some (XNode.elem "w:rPr" ra rch)))
    (createTextRuns tB none)
    hs1 hsA hsB hp1 hpA hpB hppB
  simp only [rebuild, hn, bind, Except.bind, h1, h2, h3]
  simp only [pure, Except.pure]
  rw [show [c5P0B pa pch ra rch tA, XNode.elem "w:p" [] (createTextRuns tB none)] =
      [XNode.elem "w:p" []
         (XNode.elem "w:pPr" pa pch :: createTextRuns tA (some (XNode.elem "w:rPr" ra rch))),
       XNode.elem "w:p" [] (createTextRuns tB none)]
    from rfl, h4]

/-! ## Concrete example documents for the claim statements -/

/-- A one-run paragraph holding the single character `c`. -/
def exPara (c : Char) : XNode :=
  .elem "w:p" [] [.elem "w:r" [] [.elem "w:t" [("xml:space", "preserve")] [.txt [c]]]]

def exBody : List XNode := [exPara 'z', exPara 'o', exPara 't']

def exPm : List (String × Nat) := [("p0", 0), ("p1", 1), ("p2", 2)]

/-- Edits for `p0` and `p2`, omitting `p1`. -/
def exOmitEdits : List Edit := [⟨some "p0", ['A'], none⟩, ⟨some "p2", ['C'], none⟩]

/-- A body whose first child is a section-properties marker. -/
def sectBody : List XNode := [.elem "w:sectPr" [] [], exPara 'z']

/-- A drawing element, a non-paragraph body child. -/
def drawEl : XNode := .elem "w:drawing" [] []

def frameBody : List XNode := [exPara 'z', drawEl]

def frameEdits : List Edit := [⟨some "p0", ['A'], none⟩]

def framePm : List (String × Nat) := [("p0", 0)]

/-- A body with one paragraph nested inside a table cell and one top-level
paragraph after the table. -/
def tblBody : List XNode :=
  [.elem "w:tbl" [] [.elem "w:tr" [] [.elem "w:tc" [] [exPara 'o']]], exPara 'z']

/-! ## Claim C1 -/

/-- Claim C1 (corrected): the live `DocxService.rebuild` path has no implicit
delete-by-omission.  For a nesting-free body, a successful rebuild always has
output paragraph count = input paragraph count + number of null-id insert
edits; paragraphs whose ids are referenced by no edit are left in place, so
the `[p0,p1,p2]` example with edits for `p0` and `p2` yields three
paragraphs, not two.  (Only the legacy `exportDocx` of docx-core.ts deletes
unreferenced paragraphs.) -/
theorem claim_C1_no_delete_by_omission (body : List XNode) (edits : List Edit)
    (pm : List (String × Nat)) (out : List XNode)
    (hb : nestedFreeP body) (h : rebuild body edits pm = .ok out) :
    countL "w:p" out = countL "w:p" body + edits.countP (fun e => e.id.isNone) :=
  rebuild_ok_count body edits pm out hb h

theorem claim_C1_counterexample :
    rebuild exBody exOmitEdits exPm = .ok [exPara 'A', exPara 'o', exPara 'C'] ∧
      (rebuild exBody exOmitEdits exPm).toOption.map (countL "w:p") = some 3 ∧
      ¬ (rebuild exBody exOmitEdits exPm).toOption.map (countL "w:p") = some 2 :=
  ⟨rfl, by decide, by decide⟩

theorem claim_C1_witness :
    nestedFreeP exBody ∧
      rebuild exBody exOmitEdits exPm = .ok [exPara 'A', exPara 'o', exPara 'C'] ∧
      countL "w:p" [exPara 'A', exPara 'o', exPara 'C'] =
        countL "w:p" exBody + exOmitEdits.countP (fun e => e.id.isNone) :=
  ⟨by unfold nestedFreeP; decide, rfl,
    claim_C1_no_delete_by_omission exBody exOmitEdits exPm _
      (by unfold nestedFreeP; decide) rfl⟩

/-! ## Claim C2 -/

/-- Claim C2 (corrected): rebuild does preserve non-paragraph content, but
only on bodies without a `w:sectPr` marker and for update-only edit lists:
`ensureDocumentStructure` moves the body's first `w:sectPr` to the end, so
section markers are reordered, refuting the unconditional claim.  Under the
two side conditions a successful rebuild keeps the body length and keeps
every body child containing no paragraph at its exact position, unchanged. -/
theorem claim_C2_non_paragraph_frame (body : List XNode) (edits : List Edit)
    (pm : List (String × Nat)) (out : List XNode)
    (hsect : countL "w:sectPr" body = 0)
    (hupd : ∀ e ∈ edits, e.id ≠ none) (h : rebuild body edits pm = .ok out) :
    out.length = body.length ∧
      ∀ (i : Nat) (x : XNode), body[i]? = some x → countN "w:p" x = 0 → out[i]? = some x :=
  rebuild_frame body edits pm out hsect hupd h

theorem claim_C2_counterexample :
    rebuild sectBody [] [] = .ok [exPara 'z', XNode.elem "w:sectPr" [] []] ∧
      sectBody[0]? = some (XNode.elem "w:sectPr" [] []) ∧
      ¬ (rebuild sectBody [] []).toOption.map (fun out => out[0]?) =
          some (some (XNode.elem "w:sectPr" [] [])) :=
  ⟨rfl, by decide, by decide⟩

theorem claim_C2_witness :
    countL "w:sectPr" frameBody = 0 ∧ (∀ e ∈ frameEdits, e.id ≠ none) ∧
      rebuild frameBody frameEdits framePm = .ok [exPara 'A', drawEl] ∧
      (([exPara 'A', drawEl] : List XNode).length = frameBody.length ∧
        ∀ (i : Nat) (x : XNode), frameBody[i]? = some x → countN "w:p" x = 0 →
          ([exPara 'A', drawEl] : List XNode)[i]? = some x) :=
  ⟨by decide, by decide, rfl,
    claim_C2_non_paragraph_frame frameBody frameEdits framePm _ (by decide) (by decide) rfl⟩

/-! ## Claim C3 -/

/-- Claim C3 (corrected): rebuilding an edit whose text contains embedded
newlines and re-parsing does NOT return the original string: `getParagraphs`
concatenates only `w:t` text-run contents and never collapses the run-level
`w:br` break markers back into newlines, so the re-extracted text is the
original text with every newline character dropped. -/
theorem claim_C3_newline_roundtrip (t : Str) (ids : Nat → String) :
    rebuild c3Body [c3Edit t] c3Pm = Except.ok (c3Out t) ∧
      (parseBody ids (c3Out t)).nodes.map (fun pn => pn.text) =
        [t.filter (fun c => !(c == '\n'))] := by
  refine ⟨c3_rebuild_eval t, ?_⟩
  have hz : countL "w:p" (createTextRuns t none) = 0 :=
    countL_createTextRuns _ t none (by decide) (by decide) (by decide)
      (by intro r hr; simp at hr)
  have hcoll : collectL "w:p" (c3Out t) = [XNode.elem "w:p" [] (createTextRuns t none)] := by
    simp only [c3Out, collectL, collectN]
    rw [collectL_nil_of_count_zero "w:p" _ hz]
    simp
  simp only [parseBody, hcoll, mapIdxFrom, List.map_cons, List.map_nil]
  rw [paraText_createTextRuns t none (by intro r hr; simp at hr) (by intro r hr; simp at hr)]
  rw [collectL_nil_of_count_zero "w:p" _ hz]
  simp [collectL, mapIdxFrom]

theorem claim_C3_counterexample :
    rebuild c3Body [c3Edit ['a', '\n', 'b']] c3Pm = .ok (c3Out ['a', '\n', 'b']) ∧
      (parseBody (fun i => toString i) (c3Out ['a', '\n', 'b'])).nodes.map
          (fun pn => pn.text) = [['a', 'b']] ∧
      ¬ (parseBody (fun i => toString i) (c3Out ['a', '\n', 'b'])).nodes.map
          (fun pn => pn.text) = [['a', '\n', 'b']] :=
  ⟨rfl, by decide, by decide⟩

/-! ## Claim C4 -/

/-- Claim C4 (confirmed): `createTextRuns` realizes exactly the spec's
description of the text-to-runs expansion: split on newlines, emit a text run
only for non-empty segments, alternate segments with line-break runs, and
emit exactly one empty text run when the whole text is empty. -/
theorem claim_C4_text_to_runs_expansion (text : Str) (rPr : Option XNode) :
    createTextRuns text rPr = specTextRuns rPr text := by
  by_cases he : text = []
  · subst he
    have h0 : runsOfLines rPr (splitNl []) = [] := (createTextRuns_empty_iff [] rPr).2 rfl
    simp [createTextRuns, specTextRuns, h0]
  · have h0 : ¬ runsOfLines rPr (splitNl text) = [] := fun hc =>
      he ((createTextRuns_empty_iff text rPr).1 hc)
    simp only [createTextRuns, specTextRuns, if_neg he, List.isEmpty_iff]
    rw [if_neg h0]
    exact runsOfLines_eq_spec rPr (splitNl text)

/-! ## Claim C5 -/

/-- Claim C5 (corrected): on a document with one styled paragraph `p0` and an
insert edit inheriting from it, the inserted paragraph does carry `p0`'s
paragraph-properties element and the run properties of `p0`'s first run, but
the properties element in the final document is `fixPPr` of the original —
`ensureDocumentStructure` fills spacing defaults into every paragraph's
properties on the way out, so the inserted fragment is not the original
fragment verbatim.  When `inheritStyleFrom` does not resolve in the map the
inserted paragraph carries no properties at all, as claimed. -/
theorem claim_C5_style_inheritance (pa : List (String × String)) (pch : List XNode)
    (ra : List (String × String)) (rch : List XNode) (tA tB : Str)
    (hr1 : countL "w:r" pch = 0) (hr2 : countL "w:r" rch = 0)
    (hp1 : countL "w:p" pch = 0) (hp2 : countL "w:p" rch = 0)
    (hs1 : countL "w:sectPr" pch = 0) (hs2 : countL "w:sectPr" rch = 0) :
    rebuild (c5Body pa pch ra rch) [⟨some "p0", tA, none⟩, ⟨none, tB, some "p0"⟩] c5Pm =
        .ok [XNode.elem "w:p" []
               (fixPPr (XNode.elem "w:pPr" pa pch) ::
                 createTextRuns tA (some (XNode.elem "w:rPr" ra rch))),
             XNode.elem "w:p" []
               (fixPPr (XNode.elem "w:pPr" pa pch) ::
                 createTextRuns tB (some (XNode.elem "w:rPr" ra rch)))] ∧
      rebuild (c5Body pa pch ra rch) [⟨some "p0", tA, none⟩, ⟨none, tB, some "zz"⟩] c5Pm =
        .ok [XNode.elem "w:p" []
               (fixPPr (XNode.elem "w:pPr" pa pch) ::
                 createTextRuns tA (some (XNode.elem "w:rPr" ra rch))),
             XNode.elem "w:p" [] (createTextRuns tB none)] :=
  ⟨c5_rebuild_eval pa pch ra rch tA tB hr1 hr2 hp1 hp2 hs1 hs2,
    c5_rebuild_eval_unres pa pch ra rch tA tB hr1 hr2 hp1 hp2 hs1 hs2⟩

theorem claim_C5_counterexample :
    (rebuild (c5Body [] [] [] []) [⟨some "p0", ['A'], none⟩, ⟨none, ['B'], some "p0"⟩]
        c5Pm).toOption.map (fun out => out.map styleInfoOf) =
      some [some (XNode.elem "w:pPr" []
              [XNode.elem "w:spacing"
                [("w:after", "0"), ("w:line", "276"), ("w:lineRule", "auto")] []]),
            some (XNode.elem "w:pPr" []
              [XNode.elem "w:spacing"
                [("w:after", "0"), ("w:line", "276"), ("w:lineRule", "auto")] []])] ∧
      ¬ (XNode.elem "w:pPr" []
            [XNode.elem "w:spacing"
              [("w:after", "0"), ("w:line", "276"), ("w:lineRule", "auto")] []] =
          XNode.elem "w:pPr" [] []) :=
  ⟨by decide, by decide⟩

theorem claim_C5_witness :
    countL "w:r" ([] : List XNode) = 0 ∧
      (rebuild (c5Body [] [] [] []) [⟨some "p0", ['A'], none⟩, ⟨none, ['B'], some "p0"⟩] c5Pm =
          .ok [XNode.elem "w:p" []
                 (fixPPr (XNode.elem "w:pPr" [] []) ::
                   createTextRuns ['A'] (some (XNode.elem "w:rPr" [] []))),
               XNode.elem "w:p" []
                 (fixPPr (XNode.elem "w:pPr" [] []) ::
                   createTextRuns ['B'] (some (XNode.elem "w:rPr" [] [])))] ∧
        rebuild (c5Body [] [] [] []) [⟨some "p0", ['A'], none⟩, ⟨none, ['B'], some "zz"⟩] c5Pm =
          .ok [XNode.elem "w:p" []
                 (fixPPr (XNode.elem "w:pPr" [] []) ::
                   createTextRuns ['A'] (some (XNode.elem "w:rPr" [] []))),
               XNode.elem "w:p" [] (createTextRuns ['B'] none)]) :=
  ⟨rfl, claim_C5_style_inheritance [] [] [] [] ['A'] ['B'] rfl rfl rfl rfl rfl rfl⟩

/-! ## Claim C6 -/

/-- Claim C6 (corrected): rebuild does NOT surface an error for an edit whose
non-null id is absent from the paragraph map — `applyEditsE` silently skips
any edit whose id fails to resolve, and a rebuild whose only edit carries an
unknown id succeeds and returns the document unchanged. -/
theorem claim_C6_unknown_id_silently_skipped :
    (∀ (pm : List (String × Nat)) (n : Nat) (s : String) (t : Str) (ih : Option String)
        (rest : List Edit) (body : List XNode),
        pm.lookup s = none →
        applyEditsE pm n (⟨some s, t, ih⟩ :: rest) body = applyEditsE pm n rest body) ∧
      rebuild exBody [⟨some "nope", ['X'], none⟩] exPm = .ok exBody := by
  constructor
  · intro pm n s t ih rest body hlk
    by_cases hs : s = ""
    · simp [applyEditsE, hs]
    · simp [applyEditsE, hs, hlk]
  · rfl

theorem claim_C6_counterexample :
    rebuild exBody [⟨some "nope", ['X'], none⟩] exPm = .ok exBody ∧
      rebuild exBody [] exPm = .ok exBody :=
  ⟨rfl, rfl⟩

/-! ## Claim C7 -/

/-- Claim C7 (corrected): parsing a document with zero paragraph elements
returns an EMPTY paragraphs array — the parse loop maps over exactly the
collected paragraphs and creates no synthetic entry — though it does return
normally rather than throwing. -/
theorem claim_C7_zero_paragraph_parse (ids : Nat → String) (body : List XNode) :
    (parseBody ids body).nodes.length = countL "w:p" body ∧
      (countL "w:p" body = 0 → (parseBody ids body).nodes = []) ∧
      parseDocx (Container.okDoc body) ids = .ok (parseBody ids body) := by
  refine ⟨?_, ?_, rfl⟩
  · simp only [parseBody]
    rw [length_mapIdxFrom, countL_eq_length_collectL]
  · intro h
    simp only [parseBody]
    rw [collectL_nil_of_count_zero "w:p" body h]
    rfl

theorem claim_C7_counterexample :
    parseDocx (Container.okDoc [XNode.elem "w:sectPr" [] []]) (fun i => toString i) =
        .ok (parseBody (fun i => toString i) [XNode.elem "w:sectPr" [] []]) ∧
      (parseBody (fun i => toString i) [XNode.elem "w:sectPr" [] []]).nodes = [] ∧
      ¬ 1 ≤ (parseBody (fun i => toString i) [XNode.elem "w:sectPr" [] []]).nodes.length :=
  ⟨rfl, rfl, by decide⟩

/-! ## Claim C8 -/

/-- Claim C8 (corrected): a failed parse creates no session state — the
upload handler touches the four session maps only after a successful parse —
but the user-facing error is NOT a distinct invalid-format kind: the route's
catch-all answers the same generic 500 `Failed to parse DOCX` for a non-ZIP
upload and for a ZIP missing its primary document part alike. -/
theorem claim_C8_upload_failure (st : Sessions) (ids : Nat → String)
    (docId : String) (buf : List Nat) (now : Int) (msg : String) :
    uploadHandler st (Container.notZip msg) ids docId buf now =
        (st, ⟨500, "Failed to parse DOCX"⟩) ∧
      uploadHandler st Container.noDocumentXml ids docId buf now =
        (st, ⟨500, "Failed to parse DOCX"⟩) :=
  ⟨rfl, rfl⟩

theorem claim_C8_counterexample :
    (uploadHandler emptySessions (Container.notZip "zip error") (fun i => toString i)
        "d" [] 0).2 =
      (uploadHandler emptySessions Container.noDocumentXml (fun i => toString i)
        "d" [] 0).2 ∧
      (uploadHandler emptySessions (Container.notZip "zip error") (fun i => toString i)
        "d" [] 0).2.status = 500 :=
  ⟨rfl, rfl⟩

/-! ## Claim C9 -/

/-- Claim C9 (corrected): session expiry is effected only by the sweep, not
by queries.  When the sweep runs at time `now` it evicts exactly the sessions
whose creation timestamp is older than the 1-hour TTL, dropping all four
per-session records together, and leaves every other session's records
untouched; but a query alone never consults the clock, so a session queried
after `T + TTL` without an intervening sweep still returns its data. -/
theorem claim_C9_session_expiry (st : Sessions) (k : String) (now : Int) :
    (expiresIn st.documentTimestamps now k →
        querySession (cleanupExpiredDocuments now st) k = none) ∧
      (¬ expiresIn st.documentTimestamps now k →
        querySession (cleanupExpiredDocuments now st) k = querySession st k) := by
  obtain ⟨hexp, hkeep⟩ := sweepFold_lookup now st.documentTimestamps st k
  constructor
  · intro h
    obtain ⟨e1, e2, _, _⟩ := hexp h
    unfold querySession cleanupExpiredDocuments
    rw [e1, e2]
  · intro h
    obtain ⟨e1, e2, _, _⟩ := hkeep h
    unfold querySession cleanupExpiredDocuments
    rw [e1, e2]

theorem claim_C9_counterexample :
    querySession (putSession "s" [1] [("p0", 0)] [] 0 emptySessions) "s" =
        some ([1], [("p0", 0)]) ∧
      sessionTtlMs < 3600001 ∧
      querySession
          (cleanupExpiredDocuments 3600001 (putSession "s" [1] [("p0", 0)] [] 0 emptySessions))
          "s" = none :=
  ⟨rfl, by decide, rfl⟩

/-! ## Claim C10 -/

/-- Claim C10 (confirmed): parse extracts every `w:p` element anywhere in the
tree — `getElementsByTagName` collects descendants, so paragraphs nested in
table cells are included — in document (pre-order) order, and for injective
fresh ids every collected paragraph `k` appears as the `k`-th parse entry and
is addressable through the paragraph map: looking its id up returns `k`. -/
theorem claim_C10_nested_paragraphs (ids : Nat → String) (body : List XNode)
    (hinj : ∀ i j, ids i = ids j → i = j) :
    collectL "w:p" body = (preorderL body).filter (hasTag "w:p") ∧
      (parseBody ids body).nodes.length = (collectL "w:p" body).length ∧
      ∀ (k : Nat) (p : XNode), (collectL "w:p" body)[k]? = some p →
        ((parseBody ids body).nodes[k]? =
            some ⟨ids k, paraText p, (paraText p).all Char.isWhitespace, styleInfoOf p⟩ ∧
          (parseBody ids body).paragraphMap.lookup (ids k) = some k) := by
  refine ⟨collectL_eq_filter_preorderL "w:p" body, ?_, ?_⟩
  · simp only [parseBody]
    rw [length_mapIdxFrom]
  · intro k p hk
    have hklen : k < (collectL "w:p" body).length := by
      rcases Nat.lt_or_ge k (collectL "w:p" body).length with h | h
      · exact h
      · rw [List.getElem?_eq_none h] at hk
        simp at hk
    constructor
    · simp only [parseBody]
      rw [getElem?_mapIdxFrom, hk]
      simp
    · simp only [parseBody]
      have hmain := lookup_mapIdxFrom_pairs ids (fun i => i) (collectL "w:p" body) 0 k hklen
        (fun i j _ _ h => hinj i j h)
      simpa using hmain

/-- The fresh-id supply of the C10 witness: `i` letters `a`. -/
def c10Ids (i : Nat) : String := String.mk (List.replicate i 'a')

theorem c10Ids_inj : ∀ i j, c10Ids i = c10Ids j → i = j := by
  intro i j h
  have hlen := congrArg (fun s => s.data.length) h
  simpa [c10Ids] using hlen

theorem claim_C10_witness :
    (∀ i j, c10Ids i = c10Ids j → i = j) ∧
      (collectL "w:p" tblBody = (preorderL tblBody).filter (hasTag "w:p") ∧
        (parseBody c10Ids tblBody).nodes.length = (collectL "w:p" tblBody).length ∧
        ∀ (k : Nat) (p : XNode), (collectL "w:p" tblBody)[k]? = some p →
          ((parseBody c10Ids tblBody).nodes[k]? =
              some ⟨c10Ids k, paraText p, (paraText p).all Char.isWhitespace, styleInfoOf p⟩ ∧
            (parseBody c10Ids tblBody).paragraphMap.lookup (c10Ids k) = some k)) ∧
      (parseBody c10Ids tblBody).nodes.length = 2 :=
  ⟨c10Ids_inj, claim_C10_nested_paragraphs c10Ids tblBody c10Ids_inj, by decide⟩
